import Mathlib

/-!
# Verification model of the Agent Factory repository

Shallow embedding of `agent_factory/factory.py` and `create_agent.py`
(and of the conversation loop of the generated `run_agent.py` script).
Text is modelled as `List Char`.  Python's `\s` / `str.strip()` whitespace
is modelled by the six ASCII whitespace characters (the sources only ever
produce ASCII whitespace around the payloads of interest).
-/

set_option maxRecDepth 10000

namespace AgentFactory

/-- ASCII whitespace, the characters matched by Python's `\s` and stripped
by `str.strip()` (restricted to the ASCII range). -/
def isWs (c : Char) : Bool :=
  c = ' ' || c = '\t' || c = '\n' || c = '\r' || c = '\x0b' || c = '\x0c'

/-- JSON inter-token whitespace, as in `json.decoder` (`[ \t\n\r]`). -/
def jsonWsChar (c : Char) : Bool :=
  c = ' ' || c = '\t' || c = '\n' || c = '\r'

/-- Model of Python `str.strip()`: drop leading and trailing whitespace. -/
def pyStrip (t : List Char) : List Char :=
  ((t.dropWhile isWs).reverse.dropWhile isWs).reverse

/-- Model of Python `str.rstrip()`: drop trailing whitespace. -/
def pyRstrip (t : List Char) : List Char :=
  (t.reverse.dropWhile isWs).reverse

/-- Model of `re.sub(r"^```(?:json)?\s*", "", t)`: the pattern is anchored at the
start of the string, so at most one match is removed.  The regex engine
first consumes the literal backticks, then greedily the optional `json`
tag, then greedily any whitespace. -/
def fenceSub1 (t : List Char) : List Char :=
  if t.take 3 = ['\x60', '\x60', '\x60'] then
    let r := t.drop 3
    let r2 := if r.take 4 = ['j', 's', 'o', 'n'] then r.drop 4 else r
    r2.dropWhile isWs
  else t

/-- Model of `re.sub(r"\s*```$", "", t)` for a string with no trailing whitespace
(the only way it is invoked in `_call_anthropic`, whose input was already
`strip()`ed, so `$` matches exactly the end of the string): if the text
ends with three backticks, remove them together with the maximal run of
whitespace immediately before them (the leftmost match of `\s*```$`). -/
def fenceSub2 (t : List Char) : List Char :=
  let r := t.reverse
  if r.take 3 = ['\x60', '\x60', '\x60'] then ((r.drop 3).dropWhile isWs).reverse else t

/-- Lines 115–119 of `factory.py`: `message.content[0].text.strip()`
followed by the two fence-stripping substitutions. -/
def stripFences (t : List Char) : List Char :=
  fenceSub2 (fenceSub1 (pyStrip t))

/-!
## JSON values and `json.loads`

`json.loads` with default arguments, as used on line 122 of `factory.py`.
String contents are kept as their source lexemes (the text between the
quotes, escape sequences unexpanded); escape sequences are validated
exactly as the strict decoder does.  Numbers are likewise kept as their
lexemes.  The non-standard constants `NaN`, `Infinity` and `-Infinity`
accepted by Python's decoder are represented as number lexemes. -/

inductive Json where
  | null : Json
  | boolV : Bool → Json
  | numV : List Char → Json
  | strV : List Char → Json
  | arr : List Json → Json
  | obj : List (List Char × Json) → Json

/-- Skip JSON inter-token whitespace. -/
def skipWsJ (t : List Char) : List Char := t.dropWhile jsonWsChar

def isHexDig (c : Char) : Bool :=
  c.isDigit || ('a' ≤ c && c ≤ 'f') || ('A' ≤ c && c ≤ 'F')

/-- Scan a JSON string body (input starts just after the opening quote).
Returns the raw lexeme between the quotes and the rest of the input after
the closing quote.  Validates what the strict decoder validates: no raw
control character below `0x20`, escapes limited to `" \ / b f n r t` and
`\uXXXX` with four hex digits.  Fuelled like the other scanners; the
entry point supplies ample fuel. -/
def parseStrBodyF (ps : List Char → Option (List Char × List Char))
    (c : Char) (rest : List Char) : Option (List Char × List Char) :=
  if c = '"' then some ([], rest)
  else if c = '\\' then
    match rest with
    | [] => none
    | e :: rest2 =>
      if e = '"' || e = '\\' || e = '/' || e = 'b' || e = 'f' ||
          e = 'n' || e = 'r' || e = 't' then
        match ps rest2 with
        | some (sv, r) => some ('\\' :: e :: sv, r)
        | none => none
      else if e = 'u' then
        match rest2 with
        | a :: b :: c2 :: d :: r2 =>
          if isHexDig a && isHexDig b && isHexDig c2 && isHexDig d then
            match ps r2 with
            | some (sv, r) => some ('\\' :: 'u' :: a :: b :: c2 :: d :: sv, r)
            | none => none
          else none
        | _ => none
      else none
  else if c.toNat < 32 then none
  else
    match ps rest with
    | some (sv, r) => some (c :: sv, r)
    | none => none

/-- Fuelled wrapper for the string-body step function. -/
def parseStrBody : Nat → List Char → Option (List Char × List Char)
  | 0, _ => none
  | _ + 1, [] => none
  | f + 1, c :: rest => parseStrBodyF (parseStrBody f) c rest

/-- Scan a JSON number starting at its first character, following the
decoder's regex `(-?(?:0|[1-9]\d*))(\.\d+)?([eE][-+]?\d+)?`.  Returns the
lexeme and the unconsumed rest. -/
def parseNum (t : List Char) : Option (List Char × List Char) :=
  let sign : List Char := if t.take 1 = ['-'] then ['-'] else []
  let t1 := if t.take 1 = ['-'] then t.drop 1 else t
  match t1 with
  | [] => none
  | c :: t2 =>
    if c = '0' then some (sign ++ ['0'], t2)
    else if c.isDigit then
      some (sign ++ c :: t2.takeWhile Char.isDigit, t2.dropWhile Char.isDigit)
    else none

/-- The optional fraction part `(\.\d+)?`. -/
def parseFrac (t : List Char) : Option (List Char × List Char) :=
  match t with
  | c :: t2 =>
    if c = '.' then
      match t2 with
      | d :: _ =>
        if d.isDigit then
          some ('.' :: t2.takeWhile Char.isDigit, t2.dropWhile Char.isDigit)
        else some ([], t)
      | [] => some ([], t)
    else some ([], t)
  | [] => some ([], t)

/-- The optional exponent part `([eE][-+]?\d+)?`. -/
def parseExp (t : List Char) : Option (List Char × List Char) :=
  match t with
  | e :: t2 =>
    if e = 'e' || e = 'E' then
      let sg := if t2.take 1 = ['+'] || t2.take 1 = ['-'] then t2.take 1 else []
      let t3 := if t2.take 1 = ['+'] || t2.take 1 = ['-'] then t2.drop 1 else t2
      match t3 with
      | c :: _ =>
        if c.isDigit then
          some (e :: sg ++ t3.takeWhile Char.isDigit, t3.dropWhile Char.isDigit)
        else some ([], t)
      | [] => some ([], t)
    else some ([], t)
  | [] => some ([], t)

/-- A full number token: integer part, then optional fraction and
exponent. -/
def parseNumber (t : List Char) : Option (List Char × List Char) :=
  match parseNum t with
  | none => none
  | some (i, r1) =>
    match parseFrac r1 with
    | none => none
    | some (fr, r2) =>
      match parseExp r2 with
      | none => none
      | some (x, r3) => some (i ++ fr ++ x, r3)

/-- One step of the value scanner at its first character, with the
continuations for objects, arrays and strings passed in. -/
def parseValF (pm : List Char → Option (List (List Char × Json) × List Char))
    (pe : List Char → Option (List Json × List Char))
    (ps : List Char → Option (List Char × List Char))
    (c : Char) (rest : List Char) : Option (Json × List Char) :=
  if c = '\x7b' then
    match pm (skipWsJ rest) with
    | some (ms, r) => some (Json.obj ms, r)
    | none => none
  else if c = '[' then
    match pe (skipWsJ rest) with
    | some (es, r) => some (Json.arr es, r)
    | none => none
  else if c = '"' then
    match ps rest with
    | some (sv, r) => some (Json.strV sv, r)
    | none => none
  else if c = 't' then
    if rest.take 3 = ['r', 'u', 'e'] then some (Json.boolV true, rest.drop 3) else none
  else if c = 'f' then
    if rest.take 4 = ['a', 'l', 's', 'e'] then some (Json.boolV false, rest.drop 4) else none
  else if c = 'n' then
    if rest.take 3 = ['u', 'l', 'l'] then some (Json.null, rest.drop 3) else none
  else if c = 'N' then
    if rest.take 2 = ['a', 'N'] then some (Json.numV ['N', 'a', 'N'], rest.drop 2) else none
  else if c = 'I' then
    if rest.take 7 = ['n', 'f', 'i', 'n', 'i', 't', 'y'] then
      some (Json.numV ('I' :: rest.take 7), rest.drop 7)
    else none
  else if c = '-' && rest.take 8 = ['I', 'n', 'f', 'i', 'n', 'i', 't', 'y'] then
    some (Json.numV ('-' :: rest.take 8), rest.drop 8)
  else if c = '-' || c.isDigit then
    match parseNumber (c :: rest) with
    | some (lx, r) => some (Json.numV lx, r)
    | none => none
  else none

/-- One step of the object scanner just after the opening brace (with
whitespace skipped): the immediate closing brace of an empty object, or a
non-empty member list via the continuation. -/
def parseMembersF (pml : List Char → Option (List (List Char × Json) × List Char))
    (c : Char) (rest : List Char) : Option (List (List Char × Json) × List Char) :=
  if c = '\x7d' then some ([], rest) else pml (c :: rest)

/-- One step of the member-list scanner: a `"key" : value` pair, then the
closing brace or a comma and the continuation; input starts at the key's
opening quote. -/
def parseMemberLoopF (ps : List Char → Option (List Char × List Char))
    (pv : List Char → Option (Json × List Char))
    (pml : List Char → Option (List (List Char × Json) × List Char))
    (c : Char) (rest : List Char) : Option (List (List Char × Json) × List Char) :=
  if c = '"' then
    match ps rest with
    | none => none
    | some (key, r1) =>
      match skipWsJ r1 with
      | [] => none
      | c3 :: r3 =>
        if c3 = ':' then
          match pv (skipWsJ r3) with
          | none => none
          | some (v, r4) =>
            match skipWsJ r4 with
            | [] => none
            | c4 :: r6 =>
              if c4 = '\x7d' then some ([(key, v)], r6)
              else if c4 = ',' then
                match pml (skipWsJ r6) with
                | none => none
                | some (ms, r7) => some ((key, v) :: ms, r7)
              else none
        else none
  else none

/-- One step of the array scanner just after `[` (whitespace skipped). -/
def parseElemsF (pel : List Char → Option (List Json × List Char))
    (c : Char) (rest : List Char) : Option (List Json × List Char) :=
  if c = ']' then some ([], rest) else pel (c :: rest)

/-- One step of the element-list scanner: a value, then the closing
bracket or a comma and the continuation. -/
def parseElemLoopF (pv : List Char → Option (Json × List Char))
    (pel : List Char → Option (List Json × List Char)) (t : List Char) :
    Option (List Json × List Char) :=
  match pv t with
  | none => none
  | some (v, r1) =>
    match skipWsJ r1 with
    | [] => none
    | c2 :: r2 =>
      if c2 = ']' then some ([v], r2)
      else if c2 = ',' then
        match pel (skipWsJ r2) with
        | none => none
        | some (es, r3) => some (v :: es, r3)
      else none

mutual

/-- Scan one JSON value (input must start at the value's first
character).  Fuelled recursion; the top-level entry point supplies more
fuel than any input can consume. -/
def parseVal : Nat → List Char → Option (Json × List Char)
  | 0, _ => none
  | _ + 1, [] => none
  | f + 1, c :: rest => parseValF (parseMembers f) (parseElems f) (parseStrBody f) c rest

/-- Fuelled wrapper for the object scanner. -/
def parseMembers : Nat → List Char → Option (List (List Char × Json) × List Char)
  | 0, _ => none
  | f + 1, [] => parseMemberLoop f []
  | f + 1, c :: rest => parseMembersF (parseMemberLoop f) c rest

/-- Fuelled wrapper for the member-list scanner. -/
def parseMemberLoop : Nat → List Char → Option (List (List Char × Json) × List Char)
  | 0, _ => none
  | _ + 1, [] => none
  | f + 1, c :: rest => parseMemberLoopF (parseStrBody f) (parseVal f) (parseMemberLoop f) c rest

/-- Fuelled wrapper for the array scanner. -/
def parseElems : Nat → List Char → Option (List Json × List Char)
  | 0, _ => none
  | f + 1, [] => parseElemLoop f []
  | f + 1, c :: rest => parseElemsF (parseElemLoop f) c rest

/-- Fuelled wrapper for the element-list scanner. -/
def parseElemLoop : Nat → List Char → Option (List Json × List Char)
  | 0, _ => none
  | f + 1, t => parseElemLoopF (parseVal f) (parseElemLoop f) t

end

/-- Model of `json.loads`: skip surrounding whitespace, scan one value,
require end of input.  The fuel `4 * (length + 1)` dominates the
scanner's consumption: between two consumed characters at most three
nested calls occur (value → members/elements → loop), so the fuel never
runs out on input the real decoder accepts within its recursion
limit. -/
def jloads (t : List Char) : Option Json :=
  match parseVal (4 * (t.length + 1)) (skipWsJ t) with
  | some (v, rest) => if skipWsJ rest = [] then some v else none
  | none => none

/-- The fixed prefix of the `ValueError` raised on line 124 of
`factory.py`. -/
def invalidJsonMsg : List Char :=
  "Anthropic returned invalid JSON.\n\n--- raw response ---\n".toList

/-- Lines 115–126 of `factory.py` (`_call_anthropic` after the network
call): strip fences, decode JSON; on decode failure raise a `ValueError`
whose message embeds the (fence-stripped) text. -/
def callAnthropicParse (raw : List Char) : Except (List Char) Json :=
  let rawText := stripFences raw
  match jloads rawText with
  | some v => Except.ok v
  | none => Except.error (invalidJsonMsg ++ rawText)

/-!
## The factory pipeline (`factory.py`)

The file system is modelled per agent directory, as an association list
from file name to file content; `dirInsert` is an overwriting write.
Jinja rendering is an external library and is passed in as an abstract
`render` function.  String values carry their JSON source lexemes, so the
serializer below emits them back verbatim (Python re-escapes the decoded
text; no claim depends on the difference).
-/

/-- Dictionary lookup as Python's `dict` built by `json.loads` does it:
with duplicate keys the last occurrence wins. -/
def objGet (ms : List (List Char × Json)) (k : List Char) : Option Json :=
  (ms.reverse.find? (fun p => p.1 == k)).map Prod.snd

/-- Dictionary assignment `d[k] = v`: replace in place when present,
append otherwise. -/
def objSet (ms : List (List Char × Json)) (k : List Char) (v : Json) :
    List (List Char × Json) :=
  if ms.any (fun p => p.1 == k) then ms.map (fun p => if p.1 == k then (k, v) else p)
  else ms ++ [(k, v)]

/-- Python truthiness of a JSON-decoded value (`bool(x)`): `None`,
`False`, numeric zero, and empty strings/lists/dicts are falsy.  A number
lexeme is zero exactly when its mantissa has digits and none of them is
nonzero (so `NaN` and `Infinity`, kept as number lexemes, stay truthy). -/
def jsonFalsy : Json → Bool
  | .null => true
  | .boolV b => !b
  | .numV lx =>
    let m := lx.takeWhile (fun c => !(c = 'e' || c = 'E'))
    m.any Char.isDigit && m.all (fun c => !c.isDigit || c = '0')
  | .strV raw => raw.isEmpty
  | .arr es => es.isEmpty
  | .obj ms => ms.isEmpty

/-- The separator text of line 329 of `factory.py` (the source file is
double-encoded UTF-8, so the characters between `Anv` and `ndarens` are
U+00C3 U+00A4, reproduced faithfully). -/
def userInstrSep : List Char :=
  "\n\n---\n\n## Anv\u00c3\u00a4ndarens instruktioner\n\n".toList

/-- Lines 327–330 of `factory.py`: the instruction-weaving string
operation `f"{existing.rstrip()}\n\n---\n\n## ...\n\n{instructions}"`. -/
def weave (existing instr : List Char) : List Char :=
  pyRstrip existing ++ userInstrSep ++ instr

/-- Python exceptions that the modelled pipeline can raise. -/
inductive PyErr where
  | valueError : List Char → PyErr
  | keyError : List Char → PyErr
  | typeError : PyErr
  | attrError : PyErr
  deriving DecidableEq

/-- Lines 326–331 of `factory.py`: `existing = agent_data.get("instructions", "") or ""`
followed by the weave assignment.  A truthy non-string `instructions`
value makes `existing.rstrip()` raise an `AttributeError`. -/
def applyUserInstructions (data : List (List Char × Json)) (instr : List Char) :
    Except PyErr (List (List Char × Json)) :=
  let existingJ := (objGet data "instructions".toList).getD (Json.strV [])
  let existingJ2 := if jsonFalsy existingJ then Json.strV [] else existingJ
  match existingJ2 with
  | .strV s => .ok (objSet data "instructions".toList (Json.strV (weave s instr)))
  | _ => .error .attrError

def spaces (n : Nat) : List Char := List.replicate n ' '

mutual

/-- Model of `json.dumps(x, indent=2, ensure_ascii=False)` (string and
number lexemes are emitted back verbatim, see the section comment). -/
def dumpsJson : Nat → Json → List Char
  | _, .null => "null".toList
  | _, .boolV true => "true".toList
  | _, .boolV false => "false".toList
  | _, .numV lx => lx
  | _, .strV raw => '"' :: raw ++ ['"']
  | _, .arr [] => "[]".toList
  | ind, .arr (e :: es) =>
    '[' :: '\n' :: dumpsElems (ind + 2) (e :: es) ++ '\n' :: spaces ind ++ [']']
  | _, .obj [] => "\x7b\x7d".toList
  | ind, .obj (m :: ms) =>
    '\x7b' :: '\n' :: dumpsMembers (ind + 2) (m :: ms) ++ '\n' :: spaces ind ++ ['\x7d']

def dumpsElems : Nat → List Json → List Char
  | _, [] => []
  | ind, [e] => spaces ind ++ dumpsJson ind e
  | ind, e :: e2 :: es =>
    spaces ind ++ dumpsJson ind e ++ ',' :: '\n' :: dumpsElems ind (e2 :: es)

def dumpsMembers : Nat → List (List Char × Json) → List Char
  | _, [] => []
  | ind, [(k, v)] => spaces ind ++ '"' :: k ++ '"' :: ':' :: ' ' :: dumpsJson ind v
  | ind, (k, v) :: m2 :: ms =>
    spaces ind ++ '"' :: k ++ '"' :: ':' :: ' ' :: dumpsJson ind v ++
      ',' :: '\n' :: dumpsMembers ind (m2 :: ms)

end

/-- A generated agent directory: file name to file content. -/
abbrev Dir := List (List Char × List Char)

/-- Writing one file: overwrite in place when the name exists, create it
otherwise. -/
def dirInsert (d : Dir) (n c : List Char) : Dir :=
  if d.any (fun p => p.1 == n) then d.map (fun p => if p.1 == n then (n, c) else p)
  else d ++ [(n, c)]

def dirNames (d : Dir) : List (List Char) := d.map Prod.fst

def dirLookup (d : Dir) (n : List Char) : Option (List Char) :=
  (d.find? (fun p => p.1 == n)).map Prod.snd

def genDataName : List Char := "generation_data.json".toList

def runScriptName : List Char := "run_agent.py".toList

def runScriptPre : List Char :=
  "#!/usr/bin/env python3\n\"\"\"\nrun_agent.py \u00e2\u20ac\u201d Execute the ".toList

def runScriptPost : List Char :=
  " agent in an interactive loop.\n\nUsage:\n    python run_agent.py\n    python run_agent.py \"Your question here\"\n\"\"\"\n\nfrom __future__ import annotations\n\nimport sys\nfrom pathlib import Path\n\nfrom anthropic import Anthropic\n\nAGENT_DIR = Path(__file__).parent\nINSTRUCTIONS = (AGENT_DIR / \"instructions.md\").read_text(encoding=\"utf-8\")\nMODEL = \"claude-sonnet-4-5-20250929\"\n\n\ndef run(user_input: str | None = None) -> None:\n    client = Anthropic()\n    conversation: list[dict] = []\n\n    if user_input:\n        prompts = [user_input]\n    else:\n        prompts = None  # interactive mode\n\n    print(f\"\\n\u00f0\u0178\u00a4\u2013  Agent loaded: \x7bAGENT_DIR.name\x7d\")\n    print(\"    Type \x27quit\x27 or \x27exit\x27 to stop.\\n\")\n\n    while True:\n        if prompts:\n            prompt = prompts.pop(0)\n        else:\n            try:\n                prompt = input(\"You: \").strip()\n            except (EOFError, KeyboardInterrupt):\n                break\n\n        if prompt.lower() in (\"quit\", \"exit\", \"q\"):\n            break\n\n        conversation.append(\x7b\"role\": \"user\", \"content\": prompt\x7d)\n\n        response = client.messages.create(\n            model=MODEL,\n            max_tokens=4096,\n            system=INSTRUCTIONS,\n            messages=conversation,\n        )\n\n        reply = response.content[0].text\n        conversation.append(\x7b\"role\": \"assistant\", \"content\": reply\x7d)\n        print(f\"\\nAgent: \x7breply\x7d\\n\")\n\n        if prompts is not None and not prompts:\n            break  # single-shot mode\n\n\nif __name__ == \"__main__\":\n    run(sys.argv[1] if len(sys.argv) > 1 else None)\n".toList

/-- The full text written by `_write_run_script` (lines 187–252 of
`factory.py`, the dedented f-string with `agent_name` interpolated; the
emoji bytes of the source are double-encoded UTF-8 and are reproduced as
the characters Python actually decodes from the file). -/
def runScriptText (agentName : List Char) : List Char :=
  runScriptPre ++ agentName ++ runScriptPost

/-- Lines 158–182 of `factory.py` (`_write_agent_folder`): write every
rendered file, then `generation_data.json`, then `run_agent.py`, in that
order, into the (possibly pre-existing) agent directory.  `mkdir` and
`chmod` have no counterpart in the flat per-directory model. -/
def writeAgentFolder (d : Dir) (rendered : List (List Char × List Char))
    (agentData : Json) (agentName : List Char) : Dir :=
  dirInsert
    (dirInsert (rendered.foldl (fun acc p => dirInsert acc p.1 p.2) d)
      genDataName (dumpsJson 0 agentData))
    runScriptName (runScriptText agentName)

/-- Lexicographic (code-point) order on strings, as Python's `sorted`
compares `str` values. -/
def strLEb : List Char → List Char → Bool
  | [], _ => true
  | _ :: _, [] => false
  | a :: as, b :: bs => if a = b then strLEb as bs else decide (a < b)

/-- Model of `sorted(f.name for f in agent_dir.iterdir())`: the names in
the directory, sorted.  (Any correct sort agrees with Python's here:
the order is total and antisymmetric, so the sorted permutation is
unique.) -/
def sortedFileNames (d : Dir) : List (List Char) :=
  List.insertionSort (fun a b => strLEb a b = true) (dirNames d)

/-- The summary dict returned by `create_agent` (lines 338–344). -/
structure Summary where
  agentName : List Char
  displayName : Json
  agentDir : List Char
  filesWritten : List (List Char)
  data : Json

def agentNameKey : List Char := "agent_name".toList

def displayNameKey : List Char := "display_name".toList

/-- Model of `Path(base) / name` for the names arising here (relative
names: plain concatenation with a separator). -/
def pathJoin (base name : List Char) : List Char := base ++ '/' :: name

/-- Python truthiness of the optional `instructions` argument. -/
def instrTruthy : Option (List Char) → Bool
  | none => false
  | some s => !s.isEmpty

/-- Lines 300–344 of `factory.py` (`create_agent`), starting from the
completion response text `raw` (the network call itself is outside the
model).  `render` abstracts `_render_templates` (Jinja); `prev` is the
prior content of the target agent directory.  Returns the Python result
(or exception) and the directory content afterwards.  A non-string
`agent_name` value raises `TypeError` in the model at extraction time; in
Python it surfaces at `base / agent_name`, also before any file is
written, with the same observable outcome. -/
def createAgent (render : List (List Char × Json) → List (List Char × List Char))
    (raw : List Char) (instr : Option (List Char)) (outputDir : List Char)
    (prev : Dir) : Except PyErr Summary × Dir :=
  match callAnthropicParse raw with
  | .error msg => (.error (.valueError msg), prev)
  | .ok (Json.obj data) =>
    match objGet data agentNameKey with
    | none => (.error (.keyError agentNameKey), prev)
    | some (Json.strV name) =>
      let dataE := if instrTruthy instr then applyUserInstructions data (instr.getD [])
        else .ok data
      match dataE with
      | .error e => (.error e, prev)
      | .ok data2 =>
        let rendered := render data2
        let dir2 := writeAgentFolder prev rendered (Json.obj data2) name
        (.ok
          { agentName := name
            displayName := (objGet data2 displayNameKey).getD (Json.strV name)
            agentDir := pathJoin outputDir name
            filesWritten := sortedFileNames dir2
            data := Json.obj data2 }, dir2)
    | some _ => (.error .typeError, prev)
  | .ok _ => (.error .typeError, prev)

/-!
## The CLI boundary (`create_agent.py`)
-/

/-- The message of `str(exc)` for the modelled exceptions (`KeyError`
displays the missing key in quotes; the library texts of `TypeError` and
`AttributeError` are abbreviated, no claim depends on them). -/
def pyErrMsg : PyErr → List Char
  | .valueError m => m
  | .keyError k => '\x27' :: k ++ ['\x27']
  | .typeError => "unsupported operand type(s)".toList
  | .attrError => "attribute error".toList

def cliErrPrefix : List Char := "\u274c  Error: ".toList

/-- Lines 61–76 of `create_agent.py` (`main` after argument parsing): the
`try`/`except` around `create_agent`.  Result: exit code, the line printed
to standard error (if any), and the file-system state afterwards.  The
CLI passes no `instructions` argument. -/
def cliMain (render : List (List Char × Json) → List (List Char × List Char))
    (raw : List Char) (outputDir : List Char) (prev : Dir) :
    Nat × Option (List Char) × Dir :=
  match createAgent render raw none outputDir prev with
  | (.ok _, d) => (0, none, d)
  | (.error e, d) => (1, some (cliErrPrefix ++ pyErrMsg e), d)

/-!
## The conversation loop of the generated `run_agent.py`

The script's `run()` function (lines 209–251 of `factory.py`, inside the
generated text).  Standard input is modelled as the finite list of lines
before end-of-input; the completion call is opaque, only the fact that a
request is issued is recorded.  The result is the trace of events and the
unconsumed part of standard input.
-/

inductive Ev where
  | readQ : List Char → Ev
  | readIn : List Char → Ev
  | call : Ev
  | quitStop : Ev
  | eofStop : Ev
  | shotStop : Ev
  deriving DecidableEq

/-- The prompt text an event reads, if it is a read event. -/
def evRead : Ev → Option (List Char)
  | .readQ s => some s
  | .readIn s => some s
  | _ => none

def isStopEv (e : Ev) : Bool :=
  e = Ev.quitStop || e = Ev.eofStop || e = Ev.shotStop

def pyLower (t : List Char) : List Char := t.map Char.toLower

/-- The quit test `prompt.lower() in ("quit", "exit", "q")`. -/
def isQuitTok (s : List Char) : Bool :=
  pyLower s = "quit".toList || pyLower s = "exit".toList || pyLower s = ['q']

/-- The loop in interactive mode (`prompts is None`): read a line
(stripped), stop on end-of-input or a quit token, otherwise issue a
request and continue. -/
def runInteractive : List (List Char) → List Ev × List (List Char)
  | [] => ([Ev.eofStop], [])
  | line :: rest =>
    let p := pyStrip line
    if isQuitTok p then ([Ev.readIn p, Ev.quitStop], rest)
    else
      let r := runInteractive rest
      (Ev.readIn p :: Ev.call :: r.1, r.2)

/-- The loop with a queued prompt list (`prompts` a list).  Queued
prompts are taken verbatim (not stripped).  After answering a prompt,
when the queue is empty the single-shot break fires; with an exhausted
queue at the top of the loop the code falls through to one `input()`
read, after which the single-shot break fires (that state is unreachable
from `run()`, which only queues one prompt, but is modelled as the code
has it). -/
def runQueued : List (List Char) → List (List Char) → List Ev × List (List Char)
  | [], [] => ([Ev.eofStop], [])
  | [], line :: rest =>
    let p := pyStrip line
    if isQuitTok p then ([Ev.readIn p, Ev.quitStop], rest)
    else ([Ev.readIn p, Ev.call, Ev.shotStop], rest)
  | p :: ps, stdin =>
    if isQuitTok p then ([Ev.readQ p, Ev.quitStop], stdin)
    else if ps.isEmpty then ([Ev.readQ p, Ev.call, Ev.shotStop], stdin)
    else
      let r := runQueued ps stdin
      (Ev.readQ p :: Ev.call :: r.1, r.2)

/-- The `run(user_input)` entry point: a truthy `user_input` becomes a
one-element queue, otherwise the loop is interactive. -/
def scriptRun (userInput : Option (List Char)) (stdin : List (List Char)) :
    List Ev × List (List Char) :=
  match userInput with
  | some u => if u.isEmpty then runInteractive stdin else runQueued [u] stdin
  | none => runInteractive stdin

/-!
## Helper accessors for stating claims about pipeline results
-/

def summaryFiles : Except PyErr Summary → List (List Char)
  | .ok s => s.filesWritten
  | .error _ => []

def summaryAgentName : Except PyErr Summary → Option (List Char)
  | .ok s => some s.agentName
  | .error _ => none

def summaryAgentDir : Except PyErr Summary → Option (List Char)
  | .ok s => some s.agentDir
  | .error _ => none

/-- The `instructions` field of the returned Agent Definition record. -/
def summaryInstructions : Except PyErr Summary → Option Json
  | .ok s =>
    match s.data with
    | .obj d => objGet d "instructions".toList
    | _ => none
  | .error _ => none

/-- A name acceptable as a single file-system directory entry: non-empty,
no path separator, no NUL byte, not one of the special entries `.`
and `..`. -/
def validDirName (n : List Char) : Bool :=
  !n.isEmpty && !n.contains '/' && !n.contains (Char.ofNat 0) &&
    n != ['.'] && n != ['.', '.']

/-- A concrete fresh-directory run used by the C8 witness. -/
def c8run : Except PyErr Summary × Dir :=
  createAgent (fun _ => [("instructions.md".toList, "hi".toList)])
    "\x7b\"agent_name\": \"dev\"\x7d".toList none "base".toList []

/-- The summary of that run. -/
def c8s : Summary :=
  match c8run.1 with
  | .ok s => s
  | .error _ => ⟨[], Json.null, [], [], Json.null⟩

def c8data2 : List (List Char × Json) := [("agent_name".toList, Json.strV "dev".toList)]

/-- Trace invariant: any read of a quit token is immediately followed by
the quit exit and nothing else. -/
def quitClean : List Ev → Prop
  | [] => True
  | e :: rest =>
    (∀ s, evRead e = some s → isQuitTok s = true → rest = [Ev.quitStop]) ∧ quitClean rest

/-- The trace ends with one of the three exit events. -/
def endsWithStop (t : List Ev) : Prop :=
  ∃ st, t.getLast? = some st ∧ isStopEv st = true

/-- The opening fence line, with or without the `json` language tag. -/
def fenceOpen (tag : Bool) : List Char :=
  if tag then ['\x60', '\x60', '\x60', 'j', 's', 'o', 'n'] else ['\x60', '\x60', '\x60']

/-- A payload wrapped in a markdown code fence: optional language tag,
whitespace separators around the payload, arbitrary surrounding
whitespace. -/
def wrapFence (tag : Bool) (lead sep1 p sep2 trail : List Char) : List Char :=
  lead ++ (fenceOpen tag ++ sep1 ++ p ++ sep2 ++ ['\x60', '\x60', '\x60']) ++ trail

/-!
## Order lemmas for the sorted file listing
-/

theorem strLEb_total : ∀ a b : List Char, strLEb a b = true ∨ strLEb b a = true
  | [], _ => Or.inl rfl
  | _ :: _, [] => Or.inr rfl
  | x :: xs, y :: ys => by
    by_cases hxy : x = y
    · subst hxy
      simpa [strLEb] using strLEb_total xs ys
    · rcases lt_or_gt_of_ne hxy with h | h
      · exact Or.inl (by simp [strLEb, hxy, h])
      · exact Or.inr (by simp [strLEb, Ne.symm hxy, h])

theorem strLEb_trans : ∀ a b c : List Char,
    strLEb a b = true → strLEb b c = true → strLEb a c = true
  | [], _, _, _, _ => rfl
  | _ :: _, [], _, hab, _ => by simp [strLEb] at hab
  | _ :: _, _ :: _, [], _, hbc => by simp [strLEb] at hbc
  | x :: xs, y :: ys, z :: zs, hab, hbc => by
    by_cases hxy : x = y <;> by_cases hyz : y = z
    · subst hxy
      subst hyz
      simp only [strLEb, if_pos rfl] at hab hbc ⊢
      exact strLEb_trans xs ys zs hab hbc
    · subst hxy
      simp only [strLEb, if_neg hyz] at hbc ⊢
      exact hbc
    · subst hyz
      simp only [strLEb, if_neg hxy] at hab ⊢
      exact hab
    · simp only [strLEb, if_neg hxy] at hab
      simp only [strLEb, if_neg hyz] at hbc
      have hxz : x < z := lt_trans (of_decide_eq_true hab) (of_decide_eq_true hbc)
      simp [strLEb, ne_of_lt hxz, hxz]

instance : IsTotal (List Char) (fun a b => strLEb a b = true) := ⟨strLEb_total⟩

instance : IsTrans (List Char) (fun a b => strLEb a b = true) := ⟨strLEb_trans⟩

theorem parseStrBody_zero (t : List Char) : parseStrBody 0 t = none := rfl

theorem parseStrBody_nil (f : Nat) : parseStrBody (f + 1) [] = none := rfl

theorem parseStrBody_cons (f : Nat) (c : Char) (rest : List Char) :
    parseStrBody (f + 1) (c :: rest) = parseStrBodyF (parseStrBody f) c rest := rfl

theorem parseVal_zero (t : List Char) : parseVal 0 t = none := rfl

theorem parseVal_nil (f : Nat) : parseVal (f + 1) [] = none := rfl

theorem parseVal_cons (f : Nat) (c : Char) (rest : List Char) :
    parseVal (f + 1) (c :: rest) =
      parseValF (parseMembers f) (parseElems f) (parseStrBody f) c rest := rfl

theorem parseMembers_zero (t : List Char) : parseMembers 0 t = none := rfl

theorem parseMembers_nil (f : Nat) : parseMembers (f + 1) [] = parseMemberLoop f [] := rfl

theorem parseMembers_cons (f : Nat) (c : Char) (rest : List Char) :
    parseMembers (f + 1) (c :: rest) = parseMembersF (parseMemberLoop f) c rest := rfl

theorem parseMemberLoop_zero (t : List Char) : parseMemberLoop 0 t = none := rfl

theorem parseMemberLoop_nil (f : Nat) : parseMemberLoop (f + 1) [] = none := rfl

theorem parseMemberLoop_cons (f : Nat) (c : Char) (rest : List Char) :
    parseMemberLoop (f + 1) (c :: rest) =
      parseMemberLoopF (parseStrBody f) (parseVal f) (parseMemberLoop f) c rest := rfl

theorem parseElems_zero (t : List Char) : parseElems 0 t = none := rfl

theorem parseElems_nil (f : Nat) : parseElems (f + 1) [] = parseElemLoop f [] := rfl

theorem parseElems_cons (f : Nat) (c : Char) (rest : List Char) :
    parseElems (f + 1) (c :: rest) = parseElemsF (parseElemLoop f) c rest := rfl

theorem parseElemLoop_zero (t : List Char) : parseElemLoop 0 t = none := rfl

theorem parseElemLoop_succ (f : Nat) (t : List Char) :
    parseElemLoop (f + 1) t = parseElemLoopF (parseVal f) (parseElemLoop f) t := rfl

/-!
## Lemmas about the directory model
-/

theorem dirLookup_dirInsert (d : Dir) (n c m : List Char) :
    dirLookup (dirInsert d n c) m = if m = n then some c else dirLookup d m := by
  unfold dirInsert dirLookup
  have hf : (fun p : List Char × List Char =>
      (if p.1 == n then (n, c) else p).1 == m) = (fun p : List Char × List Char => p.1 == m) := by
    funext p
    by_cases h : p.1 == n
    · have : p.1 = n := by simpa using h
      simp [h, this]
    · simp [h]
  by_cases hany : d.any (fun p => p.1 == n) = true
  · simp only [hany, if_pos]
    rw [List.find?_map]
    simp only [Function.comp_def, hf]
    by_cases hm : m = n
    · subst hm
      obtain ⟨p, hp, hpn⟩ := List.any_eq_true.mp hany
      have hsome : (List.find? (fun p : List Char × List Char => p.1 == m) d).isSome := by
        rw [List.find?_isSome]
        exact ⟨p, hp, hpn⟩
      obtain ⟨q, hq⟩ := Option.isSome_iff_exists.mp hsome
      have hq1 : q.1 = m := by simpa using List.find?_some hq
      simp [hq, hq1]
    · simp only [hm, if_neg, not_false_iff]
      cases hfind : List.find? (fun p : List Char × List Char => p.1 == m) d with
      | none => simp
      | some q =>
        have hq1 : q.1 = m := by simpa using List.find?_some hfind
        have hq2 : q.1 ≠ n := by
          rw [hq1]
          exact hm
        simp [hq2]
  · simp only [hany, if_neg, not_false_iff, Bool.not_eq_true]
    rw [List.find?_append]
    by_cases hm : m = n
    · subst hm
      have : List.find? (fun p : List Char × List Char => p.1 == m) d = none := by
        rw [List.find?_eq_none]
        intro p hp
        simp only [Bool.not_eq_true]
        by_contra hc
        exact absurd (List.any_eq_true.mpr ⟨p, hp, by simpa using hc⟩) hany
      simp [this]
    · have : (n == m) = false := by
        simp
        intro h
        exact hm h.symm
      cases hfind : List.find? (fun p : List Char × List Char => p.1 == m) d with
      | none => simp [hfind, this, hm]
      | some q => simp [hfind, this, hm]

theorem mem_dirNames_dirInsert (d : Dir) (n c m : List Char) :
    m ∈ dirNames (dirInsert d n c) ↔ m ∈ dirNames d ∨ m = n := by
  unfold dirInsert dirNames
  by_cases hany : d.any (fun p => p.1 == n) = true
  · simp only [hany, if_pos, List.map_map]
    have hmapfst : ∀ p : List Char × List Char, p ∈ d →
        (Prod.fst ∘ fun p : List Char × List Char => if p.1 == n then (n, c) else p) p = p.1 := by
      intro p _
      by_cases h : p.1 = n
      · simp [Function.comp_def, h]
      · simp [Function.comp_def, h]
    rw [List.map_congr_left hmapfst]
    constructor
    · intro h
      exact Or.inl h
    · intro h
      rcases h with h | h
      · exact h
      · subst h
        obtain ⟨p, hp, hpn⟩ := List.any_eq_true.mp hany
        have hpm : p.1 = m := by simpa using hpn
        exact hpm ▸ List.mem_map.mpr ⟨p, hp, rfl⟩
  · simp only [hany, if_neg, not_false_iff, Bool.not_eq_true]
    simp [List.mem_map, eq_comm]

theorem mem_dirNames_foldl (r : List (List Char × List Char)) (d : Dir) (m : List Char) :
    m ∈ dirNames (r.foldl (fun acc p => dirInsert acc p.1 p.2) d) ↔
      m ∈ dirNames d ∨ m ∈ r.map Prod.fst := by
  induction r generalizing d with
  | nil => simp
  | cons p tl ih =>
    simp only [List.foldl_cons, ih, mem_dirNames_dirInsert, List.map_cons, List.mem_cons]
    tauto

/-- Content of the fold over the rendered files: the last write to a name
wins, otherwise the prior directory answers. -/
theorem dirLookup_foldl (r : List (List Char × List Char)) (d : Dir) (m : List Char) :
    dirLookup (r.foldl (fun acc p => dirInsert acc p.1 p.2) d) m =
      ((r.reverse.find? (fun p => p.1 == m)).map Prod.snd).or (dirLookup d m) := by
  induction r generalizing d with
  | nil => simp
  | cons p tl ih =>
    simp only [List.foldl_cons, ih, List.reverse_cons, List.find?_append]
    cases hfind : List.find? (fun p => p.1 == m) tl.reverse with
    | none =>
      simp only [hfind, Option.none_or, dirLookup_dirInsert]
      by_cases hm : m = p.1
      · simp [hm.symm, Option.or]
      · have : (p.1 == m) = false := by
          simp
          intro h
          exact hm h.symm
        simp [this, hm, Option.or]
    | some q => simp [hfind, Option.or]

theorem mem_dirNames_writeAgentFolder (d : Dir) (r : List (List Char × List Char))
    (data : Json) (name m : List Char) :
    m ∈ dirNames (writeAgentFolder d r data name) ↔
      m ∈ dirNames d ∨ m ∈ r.map Prod.fst ∨ m = genDataName ∨ m = runScriptName := by
  unfold writeAgentFolder
  rw [mem_dirNames_dirInsert, mem_dirNames_dirInsert, mem_dirNames_foldl]
  tauto

theorem dirLookup_writeAgentFolder (d : Dir) (r : List (List Char × List Char))
    (data : Json) (name m : List Char) :
    dirLookup (writeAgentFolder d r data name) m =
      if m = runScriptName then some (runScriptText name)
      else if m = genDataName then some (dumpsJson 0 data)
      else ((r.reverse.find? (fun p => p.1 == m)).map Prod.snd).or (dirLookup d m) := by
  unfold writeAgentFolder
  rw [dirLookup_dirInsert, dirLookup_dirInsert, dirLookup_foldl]

/-!
## Claims C4 and C6: the Folder Writer
-/

/-- C4: after `_write_agent_folder` completes, the agent directory
contains exactly one file per rendered template, `generation_data.json`,
and `run_agent.py` — no extras and no omissions — both for a fresh
directory and for a directory left behind by a prior run that wrote the
same set of rendered file names. -/
theorem writeAgentFolder_exact_contents (prev : Dir)
    (rendered : List (List Char × List Char)) (data : Json) (name m : List Char)
    (hprev : prev = [] ∨ ∃ r0 data0 name0, r0.map Prod.fst = rendered.map Prod.fst ∧
        prev = writeAgentFolder [] r0 data0 name0) :
    m ∈ dirNames (writeAgentFolder prev rendered data name) ↔
      m ∈ rendered.map Prod.fst ∨ m = genDataName ∨ m = runScriptName := by
  rcases hprev with h | ⟨r0, data0, name0, hkeys, h⟩
  · subst h
    rw [mem_dirNames_writeAgentFolder]
    simp [dirNames]
  · subst h
    rw [mem_dirNames_writeAgentFolder, mem_dirNames_writeAgentFolder, hkeys]
    simp [dirNames]

/-- Witness for C4 at a concrete instantiation. -/
theorem writeAgentFolder_exact_contents_witness :
    "instructions.md".toList ∈
        dirNames (writeAgentFolder [] [("instructions.md".toList, "x".toList)]
          (Json.obj []) "dev".toList) ↔
      "instructions.md".toList ∈ [("instructions.md".toList, "x".toList)].map Prod.fst ∨
        "instructions.md".toList = genDataName ∨ "instructions.md".toList = runScriptName :=
  writeAgentFolder_exact_contents [] [("instructions.md".toList, "x".toList)]
    (Json.obj []) "dev".toList "instructions.md".toList (Or.inl rfl)

/-- C6: `_write_agent_folder` is idempotent — invoking it twice with the
same identifier, rendered files and agent data leaves every file with the
same content as one invocation. -/
theorem writeAgentFolder_idempotent (d : Dir) (r : List (List Char × List Char))
    (data : Json) (name m : List Char) :
    dirLookup (writeAgentFolder (writeAgentFolder d r data name) r data name) m =
      dirLookup (writeAgentFolder d r data name) m := by
  rw [dirLookup_writeAgentFolder, dirLookup_writeAgentFolder]
  by_cases h1 : m = runScriptName
  · simp [h1]
  · by_cases h2 : m = genDataName
    · simp [h1, h2]
    · simp only [h1, h2, if_neg, not_false_iff]
      cases hfind : List.find? (fun p => p.1 == m) r.reverse with
      | none => simp [hfind, Option.or]
      | some q => simp [hfind, Option.or]

/-!
## Claim C2: the error on malformed model output
-/

/-- C2 counterexample: for the response text `` ```x `` the raised error
message embeds only the fence-stripped text `x`; the verbatim raw
response text does not occur in the message, refuting the claim as
stated. -/
theorem callAnthropicParse_error_raw_not_embedded :
    callAnthropicParse "\x60\x60\x60x".toList = .error (invalidJsonMsg ++ ['x']) ∧
      ¬ ("\x60\x60\x60x".toList <:+: invalidJsonMsg ++ ['x']) := by
  constructor
  · rfl
  · decide

/-- C2 amended: when the response text is not valid JSON after
fence-stripping, parsing fails with an error whose message embeds
verbatim the fence-stripped text (the exact string handed to the JSON
decoder); the original raw text itself is embedded exactly when
stripping removed nothing. -/
theorem callAnthropicParse_error_embeds_stripped (raw : List Char)
    (h : jloads (stripFences raw) = none) :
    callAnthropicParse raw = .error (invalidJsonMsg ++ stripFences raw) ∧
      stripFences raw <:+ invalidJsonMsg ++ stripFences raw ∧
      (stripFences raw = raw → raw <:+ invalidJsonMsg ++ stripFences raw) := by
  refine ⟨?_, ⟨invalidJsonMsg, rfl⟩, ?_⟩
  · simp [callAnthropicParse, h]
  · intro heq
    exact ⟨invalidJsonMsg, by rw [heq]⟩

/-- Witness for C2 (amended) at the concrete response text `x`. -/
theorem callAnthropicParse_error_embeds_stripped_witness :
    callAnthropicParse "x".toList = .error (invalidJsonMsg ++ stripFences "x".toList) ∧
      stripFences "x".toList <:+ invalidJsonMsg ++ stripFences "x".toList ∧
      (stripFences "x".toList = "x".toList →
        "x".toList <:+ invalidJsonMsg ++ stripFences "x".toList) :=
  callAnthropicParse_error_embeds_stripped "x".toList (by rfl)

/-!
## Claim C3: weaving user instructions
-/

/-- C3 counterexample: with a generated `instructions` value carrying a
trailing space (`"abc "`) and user instructions `"do"`, the final
instruction text starts with the `rstrip`ped text `abc`, so the
originally generated text `"abc "` occurs nowhere in it (in particular
not at the start), refuting the claim as stated. -/
theorem createAgent_instructions_not_superset :
    summaryInstructions (createAgent (fun _ => [])
        "\x7b\"agent_name\": \"a\", \"instructions\": \"abc \"\x7d".toList
        (some "do".toList) "b".toList []).1 =
      some (Json.strV (weave "abc ".toList "do".toList)) ∧
      ¬ ("abc ".toList <:+: weave "abc ".toList "do".toList) := by
  constructor
  · rfl
  · decide

/-- C3 amended: with non-empty user instructions, the final instruction
text is the originally generated text with its trailing whitespace
removed, then the fixed separator, then the user instructions — so it
ends with the user's instructions and starts with the `rstrip`ped
generated text (not necessarily with the generated text verbatim). -/
theorem weave_structure (existing instr : List Char) (_h : instr ≠ []) :
    weave existing instr = pyRstrip existing ++ userInstrSep ++ instr ∧
      instr <:+ weave existing instr ∧
      pyRstrip existing <+: weave existing instr ∧
      userInstrSep <:+: weave existing instr := by
  refine ⟨rfl, ⟨pyRstrip existing ++ userInstrSep, by simp [weave]⟩,
    ⟨userInstrSep ++ instr, by simp [weave]⟩,
    ⟨pyRstrip existing, instr, by simp [weave]⟩⟩

/-- Witness for C3 (amended) at concrete texts. -/
theorem weave_structure_witness :
    weave "abc".toList "do".toList =
        pyRstrip "abc".toList ++ userInstrSep ++ "do".toList ∧
      "do".toList <:+ weave "abc".toList "do".toList ∧
      pyRstrip "abc".toList <+: weave "abc".toList "do".toList ∧
      userInstrSep <:+: weave "abc".toList "do".toList :=
  weave_structure "abc".toList "do".toList (by decide)

/-!
## Claim C5: validity of the identifier
-/

/-- C5 counterexample: a parsed completion response may carry any string
as `agent_name`; with `a/b` the pipeline succeeds and uses it verbatim,
though it is not a valid single directory name. -/
theorem createAgent_accepts_invalid_dir_name :
    summaryAgentName (createAgent (fun _ => [])
        "\x7b\"agent_name\": \"a/b\"\x7d".toList none "base".toList []).1 =
      some "a/b".toList ∧
      validDirName "a/b".toList = false := by
  constructor
  · rfl
  · decide

/-- C5 amended: the pipeline performs no validation of the identifier —
it uses the `agent_name` string of the parsed response verbatim as the
output directory name, so the invariant holds exactly when the
completion response happens to supply a valid directory name. -/
theorem createAgent_name_passthrough (render : List (List Char × Json) → List (List Char × List Char))
    (raw base : List Char) (prev : Dir) (data : List (List Char × Json)) (name : List Char)
    (hparse : callAnthropicParse raw = .ok (Json.obj data))
    (hname : objGet data agentNameKey = some (Json.strV name)) :
    summaryAgentName (createAgent render raw none base prev).1 = some name ∧
      summaryAgentDir (createAgent render raw none base prev).1 =
        some (pathJoin base name) := by
  unfold createAgent
  rw [hparse]
  simp only [hname, instrTruthy]
  constructor <;> rfl

/-- Witness for C5 (amended) at a concrete response. -/
theorem createAgent_name_passthrough_witness :
    summaryAgentName (createAgent (fun _ => [])
        "\x7b\"agent_name\": \"dev\"\x7d".toList none "base".toList []).1 =
        some "dev".toList ∧
      summaryAgentDir (createAgent (fun _ => [])
        "\x7b\"agent_name\": \"dev\"\x7d".toList none "base".toList []).1 =
        some (pathJoin "base".toList "dev".toList) :=
  createAgent_name_passthrough (fun _ => []) "\x7b\"agent_name\": \"dev\"\x7d".toList
    "base".toList [] [("agent_name".toList, Json.strV "dev".toList)] "dev".toList
    (by rfl) (by rfl)

/-!
## Claim C10: missing `agent_name`
-/

/-- C10: when the parsed completion response is an object without the
`agent_name` key, `create_agent` raises `KeyError` before anything is
rendered or written: the pipeline result is the `KeyError` and the file
system is exactly the prior state. -/
theorem createAgent_missing_agent_name (render : List (List Char × Json) → List (List Char × List Char))
    (raw : List Char) (instr : Option (List Char)) (base : List Char) (prev : Dir)
    (data : List (List Char × Json))
    (hparse : callAnthropicParse raw = .ok (Json.obj data))
    (hmiss : objGet data agentNameKey = none) :
    createAgent render raw instr base prev = (.error (.keyError agentNameKey), prev) := by
  unfold createAgent
  rw [hparse]
  simp only [hmiss]

/-- Witness for C10 at a concrete response lacking `agent_name`. -/
theorem createAgent_missing_agent_name_witness :
    createAgent (fun _ => []) "\x7b\"x\": 1\x7d".toList none "base".toList
        [("old".toList, "o".toList)] =
      (.error (.keyError agentNameKey), [("old".toList, "o".toList)]) :=
  createAgent_missing_agent_name (fun _ => []) "\x7b\"x\": 1\x7d".toList none
    "base".toList [("old".toList, "o".toList)] [("x".toList, Json.numV ['1'])]
    (by rfl) (by rfl)

/-!
## Claim C8: the returned summary
-/

/-- C8 counterexample: `files_written` is produced by listing the output
directory, not by recording the written names — with a pre-existing
unrelated file `zzz` in the directory, the summary of a successful run
lists `zzz`, which is not a written file name. -/
theorem createAgent_files_lists_stale_entries :
    "zzz".toList ∈ summaryFiles (createAgent
        (fun _ => [("instructions.md".toList, "hi".toList)])
        "\x7b\"agent_name\": \"dev\"\x7d".toList none "base".toList
        [("zzz".toList, "junk".toList)]).1 ∧
      "zzz".toList ∉
        ([("instructions.md".toList, "hi".toList)].map Prod.fst ++
          [genDataName, runScriptName]) := by
  constructor
  · decide
  · decide

/-- C8 amended: on a successful run the summary carries the identifier,
display name, directory path and full record as claimed, and
`files_written` is the sorted listing of the output directory — which,
when the directory was fresh, consists exactly of the rendered file
names, `generation_data.json` and `run_agent.py`. -/
theorem createAgent_summary_fresh (render : List (List Char × Json) → List (List Char × List Char))
    (raw : List Char) (instr : Option (List Char)) (base : List Char)
    (s : Summary) (d2 : Dir) (data2 : List (List Char × Json))
    (h : createAgent render raw instr base [] = (.ok s, d2))
    (hdata : s.data = Json.obj data2) :
    s.filesWritten = sortedFileNames d2 ∧
      List.Sorted (fun a b => strLEb a b = true) s.filesWritten ∧
      (∀ m, m ∈ s.filesWritten ↔
        m ∈ (render data2).map Prod.fst ∨ m = genDataName ∨ m = runScriptName) := by
  unfold createAgent at h
  split at h
  · exact absurd (congrArg Prod.fst h) (by simp)
  · rename_i data hp
    split at h
    · exact absurd (congrArg Prod.fst h) (by simp)
    · rename_i name hname
      split at h
      · -- user instructions supplied: split on the weaving result
        dsimp only [] at h
        split at h
        · exact absurd (congrArg Prod.fst h) (by simp)
        · rename_i data2x hdataE
          have hd : writeAgentFolder [] (render data2x) (Json.obj data2x) name = d2 :=
            congrArg Prod.snd h
          have hs : Summary.mk name ((objGet data2x displayNameKey).getD (Json.strV name))
              (pathJoin base name)
              (sortedFileNames (writeAgentFolder [] (render data2x) (Json.obj data2x) name))
              (Json.obj data2x) = s :=
            Except.ok.inj (congrArg Prod.fst h)
          subst hd
          subst hs
          have hda : data2x = data2 := by simpa using hdata
          subst hda
          refine ⟨rfl, List.sorted_insertionSort _ _, ?_⟩
          intro m
          show m ∈ sortedFileNames _ ↔ _
          rw [sortedFileNames, (List.perm_insertionSort _ _).mem_iff,
            mem_dirNames_writeAgentFolder]
          simp [dirNames]
      · -- no user instructions: the record is written as parsed
        have hd : writeAgentFolder [] (render data) (Json.obj data) name = d2 :=
          congrArg Prod.snd h
        have hs : Summary.mk name ((objGet data displayNameKey).getD (Json.strV name))
            (pathJoin base name)
            (sortedFileNames (writeAgentFolder [] (render data) (Json.obj data) name))
            (Json.obj data) = s :=
          Except.ok.inj (congrArg Prod.fst h)
        subst hd
        subst hs
        have hda : data = data2 := by simpa using hdata
        subst hda
        refine ⟨rfl, List.sorted_insertionSort _ _, ?_⟩
        intro m
        show m ∈ sortedFileNames _ ↔ _
        rw [sortedFileNames, (List.perm_insertionSort _ _).mem_iff,
          mem_dirNames_writeAgentFolder]
        simp [dirNames]
    · exact absurd (congrArg Prod.fst h) (by simp)
  · exact absurd (congrArg Prod.fst h) (by simp)

/-- Witness for C8 (amended) at the concrete run. -/
theorem createAgent_summary_fresh_witness :
    c8s.filesWritten = sortedFileNames c8run.2 ∧
      List.Sorted (fun a b => strLEb a b = true) c8s.filesWritten ∧
      (∀ m, m ∈ c8s.filesWritten ↔
        m ∈ ([("instructions.md".toList, "hi".toList)] : List (List Char × List Char)).map Prod.fst ∨
          m = genDataName ∨ m = runScriptName) :=
  createAgent_summary_fresh (fun _ => [("instructions.md".toList, "hi".toList)])
    "\x7b\"agent_name\": \"dev\"\x7d".toList none "base".toList c8s c8run.2 c8data2
    (by rfl) (by rfl)

/-!
## Claim C7: the CLI boundary
-/

/-- C7: the CLI exits with code 0 (and prints nothing to standard error)
when the pipeline succeeds, and for every exception raised by the
pipeline it exits with code 1 after printing the error line to standard
error; in both cases the file system is left exactly as the pipeline left
it — no recovery or cleanup. -/
theorem cliMain_exit_codes (render : List (List Char × Json) → List (List Char × List Char))
    (raw base : List Char) (prev : Dir) :
    (∀ s d2, createAgent render raw none base prev = (.ok s, d2) →
      cliMain render raw base prev = (0, none, d2)) ∧
    (∀ e d2, createAgent render raw none base prev = (.error e, d2) →
      cliMain render raw base prev = (1, some (cliErrPrefix ++ pyErrMsg e), d2)) := by
  constructor
  · intro s d2 h
    unfold cliMain
    rw [h]
  · intro e d2 h
    unfold cliMain
    rw [h]

/-- Witness for C7: a malformed completion response makes the CLI exit
with code 1 and an error line; a well-formed one makes it exit 0. -/
theorem cliMain_exit_codes_witness :
    cliMain (fun _ => []) "oops".toList "base".toList [] =
        (1, some (cliErrPrefix ++ pyErrMsg (.valueError (invalidJsonMsg ++ "oops".toList))), []) ∧
      cliMain (fun _ => []) "\x7b\"agent_name\": \"dev\"\x7d".toList "base".toList [] =
        (0, none, (createAgent (fun _ => []) "\x7b\"agent_name\": \"dev\"\x7d".toList none
          "base".toList []).2) :=
  ⟨(cliMain_exit_codes (fun _ => []) "oops".toList "base".toList []).2
      (.valueError (invalidJsonMsg ++ "oops".toList)) [] (by rfl),
    (cliMain_exit_codes (fun _ => []) "\x7b\"agent_name\": \"dev\"\x7d".toList "base".toList []).1
      (match (createAgent (fun _ => []) "\x7b\"agent_name\": \"dev\"\x7d".toList none
          "base".toList []).1 with
        | .ok s => s
        | .error _ => ⟨[], Json.null, [], [], Json.null⟩)
      (createAgent (fun _ => []) "\x7b\"agent_name\": \"dev\"\x7d".toList none "base".toList []).2
      (by rfl)⟩

/-!
## Claim C9: the conversation loop of the generated script
-/

theorem quitClean_runInteractive : ∀ stdin, quitClean (runInteractive stdin).1
  | [] => by
    refine ⟨?_, trivial⟩
    intro s hs
    simp [evRead] at hs
  | line :: rest => by
    by_cases hq : isQuitTok (pyStrip line) = true
    · simp only [runInteractive, hq, if_pos]
      refine ⟨?_, ?_, trivial⟩
      · intro s hs _
        rfl
      · intro s hs
        simp [evRead] at hs
    · simp only [runInteractive, hq, if_neg, not_false_iff, Bool.not_eq_true]
      refine ⟨?_, ?_, quitClean_runInteractive rest⟩
      · intro s hs hqs
        rw [evRead] at hs
        cases hs
        exact absurd hqs (by simp [hq])
      · intro s hs
        simp [evRead] at hs

theorem quitClean_runQueued : ∀ ps stdin, quitClean (runQueued ps stdin).1
  | [], [] => by
    refine ⟨?_, trivial⟩
    intro s hs
    simp [evRead] at hs
  | [], line :: rest => by
    by_cases hq : isQuitTok (pyStrip line) = true
    · simp only [runQueued, hq, if_pos]
      refine ⟨?_, ?_, trivial⟩
      · intro s hs _
        rfl
      · intro s hs
        simp [evRead] at hs
    · simp only [runQueued, hq, if_neg, not_false_iff, Bool.not_eq_true]
      refine ⟨?_, ?_, ?_, trivial⟩
      · intro s hs hqs
        rw [evRead] at hs
        cases hs
        exact absurd hqs (by simp [hq])
      · intro s hs
        simp [evRead] at hs
      · intro s hs
        simp [evRead] at hs
  | p :: ps, stdin => by
    by_cases hq : isQuitTok p = true
    · simp only [runQueued, hq, if_pos]
      refine ⟨?_, ?_, trivial⟩
      · intro s hs _
        rfl
      · intro s hs
        simp [evRead] at hs
    · by_cases hps : ps.isEmpty = true
      · simp only [runQueued, hq, hps, if_neg, if_pos, not_false_iff, Bool.not_eq_true]
        refine ⟨?_, ?_, ?_, trivial⟩
        · intro s hs hqs
          rw [evRead] at hs
          cases hs
          exact absurd hqs (by simp [hq])
        · intro s hs
          simp [evRead] at hs
        · intro s hs
          simp [evRead] at hs
      · simp only [runQueued, hq, hps, if_neg, not_false_iff, Bool.not_eq_true]
        refine ⟨?_, ?_, quitClean_runQueued ps stdin⟩
        · intro s hs hqs
          rw [evRead] at hs
          cases hs
          exact absurd hqs (by simp [hq])
        · intro s hs
          simp [evRead] at hs

theorem quitClean_decomp : ∀ pre (t : List Ev), quitClean t →
    ∀ e post s, t = pre ++ e :: post → evRead e = some s → isQuitTok s = true →
      post = [Ev.quitStop]
  | [], t, hclean, e, post, s, ht, hread, hquit => by
    subst ht
    exact hclean.1 s hread hquit
  | x :: pre, t, hclean, e, post, s, ht, hread, hquit => by
    subst ht
    exact quitClean_decomp pre _ hclean.2 e post s rfl hread hquit

theorem endsWithStop_runInteractive : ∀ stdin, endsWithStop (runInteractive stdin).1
  | [] => ⟨Ev.eofStop, rfl, rfl⟩
  | line :: rest => by
    by_cases hq : isQuitTok (pyStrip line) = true
    · exact ⟨Ev.quitStop, by simp [runInteractive, hq], rfl⟩
    · obtain ⟨st, hst, hstop⟩ := endsWithStop_runInteractive rest
      refine ⟨st, ?_, hstop⟩
      simp only [runInteractive, hq, if_neg, not_false_iff, Bool.not_eq_true]
      cases htl : (runInteractive rest).1 with
      | nil => rw [htl] at hst; simp at hst
      | cons c t2 =>
        rw [htl] at hst
        rw [List.getLast?_cons_cons, List.getLast?_cons_cons]
        exact hst

theorem endsWithStop_runQueued : ∀ ps stdin, endsWithStop (runQueued ps stdin).1
  | [], [] => ⟨Ev.eofStop, rfl, rfl⟩
  | [], line :: rest => by
    by_cases hq : isQuitTok (pyStrip line) = true
    · exact ⟨Ev.quitStop, by simp [runQueued, hq], rfl⟩
    · exact ⟨Ev.shotStop, by simp [runQueued, hq], rfl⟩
  | p :: ps, stdin => by
    by_cases hq : isQuitTok p = true
    · exact ⟨Ev.quitStop, by simp [runQueued, hq], rfl⟩
    · by_cases hps : ps.isEmpty = true
      · exact ⟨Ev.shotStop, by simp [runQueued, hq, hps], rfl⟩
      · obtain ⟨st, hst, hstop⟩ := endsWithStop_runQueued ps stdin
        refine ⟨st, ?_, hstop⟩
        simp only [runQueued, hq, hps, if_neg, not_false_iff, Bool.not_eq_true]
        cases htl : (runQueued ps stdin).1 with
        | nil => rw [htl] at hst; simp at hst
        | cons c t2 =>
          rw [htl] at hst
          rw [List.getLast?_cons_cons, List.getLast?_cons_cons]
          exact hst

theorem quitClean_scriptRun (u : Option (List Char)) (stdin : List (List Char)) :
    quitClean (scriptRun u stdin).1 := by
  unfold scriptRun
  cases u with
  | none => exact quitClean_runInteractive stdin
  | some v =>
    by_cases hv : v.isEmpty = true
    · simp only [hv, if_pos]
      exact quitClean_runInteractive stdin
    · simp only [hv, if_neg, not_false_iff, Bool.not_eq_true]
      exact quitClean_runQueued [v] stdin

/-- C9: the conversation loop of the generated `run_agent.py` never
issues a completion request after reading a quit token (`quit`, `exit`,
`q`, case-insensitive) — indeed nothing follows such a read but the quit
exit; every run of the loop terminates, ending in a quit, end-of-input,
or single-shot exit; and a single non-quit initial prompt is answered
with exactly one request after which the loop exits without touching
standard input. -/
theorem runScript_quit_and_single_shot :
    (∀ u stdin pre e post s, (scriptRun u stdin).1 = pre ++ e :: post →
      evRead e = some s → isQuitTok s = true →
      post = [Ev.quitStop] ∧ Ev.call ∉ post) ∧
    (∀ u stdin, endsWithStop (scriptRun u stdin).1) ∧
    (∀ p stdin, p ≠ [] → isQuitTok p = false →
      scriptRun (some p) stdin = ([Ev.readQ p, Ev.call, Ev.shotStop], stdin)) := by
  refine ⟨?_, ?_, ?_⟩
  · intro u stdin pre e post s ht hread hquit
    have hpost := quitClean_decomp pre (scriptRun u stdin).1
      (quitClean_scriptRun u stdin) e post s ht hread hquit
    subst hpost
    exact ⟨rfl, by decide⟩
  · intro u stdin
    unfold scriptRun
    cases u with
    | none => exact endsWithStop_runInteractive stdin
    | some v =>
      by_cases hv : v.isEmpty = true
      · simp only [hv, if_pos]
        exact endsWithStop_runInteractive stdin
      · simp only [hv, if_neg, not_false_iff, Bool.not_eq_true]
        exact endsWithStop_runQueued [v] stdin
  · intro p stdin hne hq
    have hpe : p.isEmpty = false := by
      cases p with
      | nil => exact absurd rfl hne
      | cons c t => rfl
    simp [scriptRun, runQueued, hpe, hq]

/-- Witness for C9 at concrete prompts. -/
theorem runScript_quit_and_single_shot_witness :
    (([Ev.quitStop] : List Ev) = [Ev.quitStop] ∧ Ev.call ∉ ([Ev.quitStop] : List Ev)) ∧
      endsWithStop (scriptRun none []).1 ∧
      scriptRun (some "hi".toList) ["x".toList] =
        ([Ev.readQ "hi".toList, Ev.call, Ev.shotStop], ["x".toList]) :=
  ⟨runScript_quit_and_single_shot.1 (some "Quit".toList) [] [] (Ev.readQ "Quit".toList)
      [Ev.quitStop] "Quit".toList (by decide) (by decide) (by decide),
    runScript_quit_and_single_shot.2.1 none [],
    runScript_quit_and_single_shot.2.2 "hi".toList ["x".toList] (by decide) (by decide)⟩

/-!
## Consumption lemmas for the JSON scanner

Every scanner returns a suffix of its input; an object scan returns the
suffix that starts right after the matching closing brace.  These
lemmas recover the bracket structure of a successfully parsed object,
which claim C1 needs.
-/

theorem some_pair_snd {α β : Type} {a c : α} {b d : β}
    (h : (some (a, b) : Option (α × β)) = some (c, d)) : b = d := by
  cases h
  rfl

theorem suffix_trans {t u r : List Char} (h1 : ∃ p, t = p ++ u) (h2 : ∃ p, u = p ++ r) :
    ∃ p, t = p ++ r := by
  obtain ⟨a, ha⟩ := h1
  obtain ⟨b, hb⟩ := h2
  exact ⟨a ++ b, by rw [ha, hb, List.append_assoc]⟩

theorem skipWsJ_suffix (t : List Char) : ∃ p, t = p ++ skipWsJ t :=
  ⟨t.takeWhile jsonWsChar, (List.takeWhile_append_dropWhile _ _).symm⟩

theorem drop_suffix (t : List Char) (n : Nat) : ∃ p, t = p ++ t.drop n :=
  ⟨t.take n, (List.take_append_drop n t).symm⟩

theorem dropWhile_suffix (t : List Char) (q : Char → Bool) : ∃ p, t = p ++ t.dropWhile q :=
  ⟨t.takeWhile q, (List.takeWhile_append_dropWhile _ _).symm⟩

theorem parseStrBody_suffix : ∀ f t sv r, parseStrBody f t = some (sv, r) → ∃ p, t = p ++ r
  | 0, t, sv, r, h => by rw [parseStrBody_zero] at h; exact absurd h (by simp)
  | _ + 1, [], sv, r, h => by rw [parseStrBody_nil] at h; exact absurd h (by simp)
  | f + 1, c :: rest, sv, r, h => by
    rw [parseStrBody_cons] at h
    unfold parseStrBodyF at h
    by_cases h1 : c = '"'
    · rw [if_pos h1] at h
      have hr : rest = r := some_pair_snd h
      exact ⟨[c], by rw [hr]; rfl⟩
    · rw [if_neg h1] at h
      by_cases h2 : c = '\\'
      · rw [if_pos h2] at h
        cases rest with
        | nil => simp at h
        | cons e rest2 =>
          dsimp only [] at h
          by_cases h3 : (e = '"' || e = '\\' || e = '/' || e = 'b' || e = 'f' ||
              e = 'n' || e = 'r' || e = 't') = true
          · rw [if_pos h3] at h
            cases hp : parseStrBody f rest2 with
            | none => rw [hp] at h; simp at h
            | some pr =>
              obtain ⟨sv2, r2⟩ := pr
              rw [hp] at h
              have hr : r2 = r := some_pair_snd h
              obtain ⟨p, hpre⟩ := parseStrBody_suffix f rest2 sv2 r2 hp
              exact ⟨c :: e :: p, by rw [← hr, hpre]; rfl⟩
          · rw [if_neg (by simpa using h3)] at h
            by_cases h4 : e = 'u'
            · rw [if_pos h4] at h
              cases rest2 with
              | nil => simp at h
              | cons a rest3 =>
                cases rest3 with
                | nil => simp at h
                | cons b rest4 =>
                  cases rest4 with
                  | nil => simp at h
                  | cons c2 rest5 =>
                    cases rest5 with
                    | nil => simp at h
                    | cons d r2 =>
                      dsimp only [] at h
                      by_cases h5 : (isHexDig a && isHexDig b && isHexDig c2 && isHexDig d) = true
                      · rw [if_pos h5] at h
                        cases hp : parseStrBody f r2 with
                        | none => rw [hp] at h; simp at h
                        | some pr =>
                          obtain ⟨sv2, r3⟩ := pr
                          rw [hp] at h
                          have hr : r3 = r := some_pair_snd h
                          obtain ⟨p, hpre⟩ := parseStrBody_suffix f r2 sv2 r3 hp
                          exact ⟨c :: e :: a :: b :: c2 :: d :: p, by rw [← hr, hpre]; rfl⟩
                      · rw [if_neg (by simpa using h5)] at h
                        simp at h
            · rw [if_neg h4] at h
              simp at h
      · rw [if_neg h2] at h
        by_cases h3 : c.toNat < 32
        · rw [if_pos h3] at h
          simp at h
        · rw [if_neg h3] at h
          cases hp : parseStrBody f rest with
          | none => rw [hp] at h; simp at h
          | some pr =>
            obtain ⟨sv2, r2⟩ := pr
            rw [hp] at h
            have hr : r2 = r := some_pair_snd h
            obtain ⟨p, hpre⟩ := parseStrBody_suffix f rest sv2 r2 hp
            exact ⟨c :: p, by rw [← hr, hpre]; rfl⟩

theorem parseNum_suffix (t lx r : List Char) (h : parseNum t = some (lx, r)) :
    ∃ p, t = p ++ r := by
  unfold parseNum at h
  by_cases hs : t.take 1 = ['-']
  · rw [if_pos hs, if_pos hs] at h
    cases ht1 : t.drop 1 with
    | nil => rw [ht1] at h; simp at h
    | cons c t2 =>
      rw [ht1] at h
      dsimp only [] at h
      by_cases h0 : c = '0'
      · rw [if_pos h0] at h
        have hr : t2 = r := some_pair_snd h
        refine suffix_trans (drop_suffix t 1) ?_
        rw [ht1, ← hr]
        exact ⟨[c], rfl⟩
      · rw [if_neg h0] at h
        by_cases hd : c.isDigit = true
        · rw [if_pos hd] at h
          have hr : t2.dropWhile Char.isDigit = r := some_pair_snd h
          refine suffix_trans (drop_suffix t 1) ?_
          rw [ht1, ← hr]
          exact ⟨c :: t2.takeWhile Char.isDigit,
            by rw [← List.takeWhile_append_dropWhile Char.isDigit t2]; simp⟩
        · rw [if_neg hd] at h
          simp at h
  · rw [if_neg hs, if_neg hs] at h
    cases ht1 : t with
    | nil => rw [ht1] at h; simp at h
    | cons c t2 =>
      rw [ht1] at h
      dsimp only [] at h
      by_cases h0 : c = '0'
      · rw [if_pos h0] at h
        have hr : t2 = r := some_pair_snd h
        rw [← hr]
        exact ⟨[c], rfl⟩
      · rw [if_neg h0] at h
        by_cases hd : c.isDigit = true
        · rw [if_pos hd] at h
          have hr : t2.dropWhile Char.isDigit = r := some_pair_snd h
          rw [← hr]
          exact ⟨c :: t2.takeWhile Char.isDigit,
            by rw [← List.takeWhile_append_dropWhile Char.isDigit t2]; simp⟩
        · rw [if_neg hd] at h
          simp at h

theorem parseFrac_suffix (t lx r : List Char) (h : parseFrac t = some (lx, r)) :
    ∃ p, t = p ++ r := by
  unfold parseFrac at h
  cases t with
  | nil =>
    have hr : ([] : List Char) = r := some_pair_snd h
    exact ⟨[], hr⟩
  | cons c t2 =>
    dsimp only [] at h
    by_cases hc : c = '.'
    · rw [if_pos hc] at h
      cases t2 with
      | nil =>
        have hr : c :: ([] : List Char) = r := some_pair_snd h
        exact ⟨[], hr⟩
      | cons d t3 =>
        dsimp only [] at h
        by_cases hd : d.isDigit = true
        · rw [if_pos hd] at h
          have hr : (d :: t3).dropWhile Char.isDigit = r := some_pair_snd h
          rw [← hr]
          exact ⟨c :: (d :: t3).takeWhile Char.isDigit,
            by rw [← List.takeWhile_append_dropWhile Char.isDigit (d :: t3)]; simp⟩
        · rw [if_neg hd] at h
          have hr : c :: d :: t3 = r := some_pair_snd h
          exact ⟨[], hr⟩
    · rw [if_neg hc] at h
      have hr : c :: t2 = r := some_pair_snd h
      exact ⟨[], hr⟩

theorem parseExp_suffix (t lx r : List Char) (h : parseExp t = some (lx, r)) :
    ∃ p, t = p ++ r := by
  unfold parseExp at h
  cases t with
  | nil => exact ⟨[], some_pair_snd h⟩
  | cons e t2 =>
    dsimp only [] at h
    by_cases he : (e = 'e' || e = 'E') = true
    · rw [if_pos he] at h
      by_cases hsg : (t2.take 1 = ['+'] || t2.take 1 = ['-']) = true
      · rw [if_pos hsg, if_pos hsg] at h
        cases ht3 : t2.drop 1 with
        | nil =>
          rw [ht3] at h
          exact ⟨[], some_pair_snd h⟩
        | cons c t4 =>
          rw [ht3] at h
          dsimp only [] at h
          by_cases hd : c.isDigit = true
          · rw [if_pos hd] at h
            have hr : (c :: t4).dropWhile Char.isDigit = r := some_pair_snd h
            refine suffix_trans (⟨[e], rfl⟩ : ∃ p, e :: t2 = p ++ t2) ?_
            refine suffix_trans (drop_suffix t2 1) ?_
            rw [ht3, ← hr]
            exact ⟨(c :: t4).takeWhile Char.isDigit,
              (List.takeWhile_append_dropWhile Char.isDigit (c :: t4)).symm⟩
          · rw [if_neg hd] at h
            exact ⟨[], some_pair_snd h⟩
      · rw [if_neg (by simpa using hsg), if_neg (by simpa using hsg)] at h
        cases t2 with
        | nil =>
          dsimp only [] at h
          exact ⟨[], some_pair_snd h⟩
        | cons c t4 =>
          dsimp only [] at h
          by_cases hd : c.isDigit = true
          · rw [if_pos hd] at h
            have hr : (c :: t4).dropWhile Char.isDigit = r := some_pair_snd h
            refine suffix_trans (⟨[e], rfl⟩ : ∃ p, e :: c :: t4 = p ++ (c :: t4)) ?_
            rw [← hr]
            exact ⟨(c :: t4).takeWhile Char.isDigit,
              (List.takeWhile_append_dropWhile Char.isDigit (c :: t4)).symm⟩
          · rw [if_neg hd] at h
            exact ⟨[], some_pair_snd h⟩
    · rw [if_neg (by simpa using he)] at h
      exact ⟨[], some_pair_snd h⟩

theorem parseNumber_suffix (t lx r : List Char) (h : parseNumber t = some (lx, r)) :
    ∃ p, t = p ++ r := by
  unfold parseNumber at h
  cases hn : parseNum t with
  | none => rw [hn] at h; simp at h
  | some pr1 =>
    obtain ⟨i, r1⟩ := pr1
    rw [hn] at h
    dsimp only [] at h
    cases hf : parseFrac r1 with
    | none => rw [hf] at h; simp at h
    | some pr2 =>
      obtain ⟨fr, r2⟩ := pr2
      rw [hf] at h
      dsimp only [] at h
      cases hx : parseExp r2 with
      | none => rw [hx] at h; simp at h
      | some pr3 =>
        obtain ⟨x, r3⟩ := pr3
        rw [hx] at h
        dsimp only [] at h
        have hr : r3 = r := some_pair_snd h
        refine suffix_trans (parseNum_suffix t i r1 hn) ?_
        refine suffix_trans (parseFrac_suffix r1 fr r2 hf) ?_
        rw [← hr]
        exact parseExp_suffix r2 x r3 hx

mutual

theorem parseVal_suffix : ∀ f t v r, parseVal f t = some (v, r) → ∃ p, t = p ++ r
  | 0, t, v, r, h => by rw [parseVal_zero] at h; exact absurd h (by simp)
  | f + 1, t, v, r, h => by
    cases t with
    | nil =>
      rw [parseVal_nil] at h
      exact absurd h (by simp)
    | cons c rest =>
      rw [parseVal_cons] at h
      unfold parseValF at h
      have hcons : ∃ p, c :: rest = p ++ rest := ⟨[c], rfl⟩
      by_cases h1 : c = '\x7b'
      · rw [if_pos h1] at h
        cases hp : parseMembers f (skipWsJ rest) with
        | none => rw [hp] at h; simp at h
        | some pr =>
          obtain ⟨ms, r2⟩ := pr
          rw [hp] at h
          dsimp only [] at h
          have hr : r2 = r := some_pair_snd h
          refine suffix_trans hcons (suffix_trans (skipWsJ_suffix rest) ?_)
          rw [← hr]
          exact parseMembers_suffix f (skipWsJ rest) ms r2 hp
      · rw [if_neg h1] at h
        by_cases h2 : c = '['
        · rw [if_pos h2] at h
          cases hp : parseElems f (skipWsJ rest) with
          | none => rw [hp] at h; simp at h
          | some pr =>
            obtain ⟨es, r2⟩ := pr
            rw [hp] at h
            dsimp only [] at h
            have hr : r2 = r := some_pair_snd h
            refine suffix_trans hcons (suffix_trans (skipWsJ_suffix rest) ?_)
            rw [← hr]
            exact parseElems_suffix f (skipWsJ rest) es r2 hp
        · rw [if_neg h2] at h
          by_cases h3 : c = '"'
          · rw [if_pos h3] at h
            cases hp : parseStrBody f rest with
            | none => rw [hp] at h; simp at h
            | some pr =>
              obtain ⟨sv, r2⟩ := pr
              rw [hp] at h
              dsimp only [] at h
              have hr : r2 = r := some_pair_snd h
              refine suffix_trans hcons ?_
              rw [← hr]
              exact parseStrBody_suffix f rest sv r2 hp
          · rw [if_neg h3] at h
            by_cases h4 : c = 't'
            · rw [if_pos h4] at h
              by_cases h4b : rest.take 3 = ['r', 'u', 'e']
              · rw [if_pos h4b] at h
                have hr : rest.drop 3 = r := some_pair_snd h
                refine suffix_trans hcons ?_
                rw [← hr]
                exact drop_suffix rest 3
              · rw [if_neg h4b] at h
                simp at h
            · rw [if_neg h4] at h
              by_cases h5 : c = 'f'
              · rw [if_pos h5] at h
                by_cases h5b : rest.take 4 = ['a', 'l', 's', 'e']
                · rw [if_pos h5b] at h
                  have hr : rest.drop 4 = r := some_pair_snd h
                  refine suffix_trans hcons ?_
                  rw [← hr]
                  exact drop_suffix rest 4
                · rw [if_neg h5b] at h
                  simp at h
              · rw [if_neg h5] at h
                by_cases h6 : c = 'n'
                · rw [if_pos h6] at h
                  by_cases h6b : rest.take 3 = ['u', 'l', 'l']
                  · rw [if_pos h6b] at h
                    have hr : rest.drop 3 = r := some_pair_snd h
                    refine suffix_trans hcons ?_
                    rw [← hr]
                    exact drop_suffix rest 3
                  · rw [if_neg h6b] at h
                    simp at h
                · rw [if_neg h6] at h
                  by_cases h7 : c = 'N'
                  · rw [if_pos h7] at h
                    by_cases h7b : rest.take 2 = ['a', 'N']
                    · rw [if_pos h7b] at h
                      have hr : rest.drop 2 = r := some_pair_snd h
                      refine suffix_trans hcons ?_
                      rw [← hr]
                      exact drop_suffix rest 2
                    · rw [if_neg h7b] at h
                      simp at h
                  · rw [if_neg h7] at h
                    by_cases h8 : c = 'I'
                    · rw [if_pos h8] at h
                      by_cases h8b : rest.take 7 = ['n', 'f', 'i', 'n', 'i', 't', 'y']
                      · rw [if_pos h8b] at h
                        have hr : rest.drop 7 = r := some_pair_snd h
                        refine suffix_trans hcons ?_
                        rw [← hr]
                        exact drop_suffix rest 7
                      · rw [if_neg h8b] at h
                        simp at h
                    · rw [if_neg h8] at h
                      by_cases h9 : (c = '-' && rest.take 8 =
                          ['I', 'n', 'f', 'i', 'n', 'i', 't', 'y']) = true
                      · rw [if_pos h9] at h
                        have hr : rest.drop 8 = r := some_pair_snd h
                        refine suffix_trans hcons ?_
                        rw [← hr]
                        exact drop_suffix rest 8
                      · rw [if_neg (by simpa using h9)] at h
                        by_cases h10 : (c = '-' || c.isDigit) = true
                        · rw [if_pos h10] at h
                          cases hp : parseNumber (c :: rest) with
                          | none => rw [hp] at h; simp at h
                          | some pr =>
                            obtain ⟨lx, r2⟩ := pr
                            rw [hp] at h
                            dsimp only [] at h
                            have hr : r2 = r := some_pair_snd h
                            rw [← hr]
                            exact parseNumber_suffix (c :: rest) lx r2 hp
                        · rw [if_neg (by simpa using h10)] at h
                          simp at h

theorem parseMembers_suffix : ∀ f t ms r, parseMembers f t = some (ms, r) → ∃ p, t = p ++ r
  | 0, t, ms, r, h => by rw [parseMembers_zero] at h; exact absurd h (by simp)
  | f + 1, t, ms, r, h => by
    cases t with
    | nil =>
      rw [parseMembers_nil] at h
      exact parseMemberLoop_suffix f [] ms r h
    | cons c rest =>
      rw [parseMembers_cons] at h
      unfold parseMembersF at h
      by_cases h1 : c = '\x7d'
      · rw [if_pos h1] at h
        have hr : rest = r := some_pair_snd h
        exact ⟨[c], by rw [hr]; rfl⟩
      · rw [if_neg h1] at h
        exact parseMemberLoop_suffix f (c :: rest) ms r h

theorem parseMemberLoop_suffix : ∀ f t ms r, parseMemberLoop f t = some (ms, r) → ∃ p, t = p ++ r
  | 0, t, ms, r, h => by rw [parseMemberLoop_zero] at h; exact absurd h (by simp)
  | f + 1, t, ms, r, h => by
    cases t with
    | nil =>
      rw [parseMemberLoop_nil] at h
      exact absurd h (by simp)
    | cons c rest =>
      rw [parseMemberLoop_cons] at h
      unfold parseMemberLoopF at h
      by_cases h1 : c = '"'
      · rw [if_pos h1] at h
        cases hps : parseStrBody f rest with
        | none => rw [hps] at h; simp at h
        | some pr =>
          obtain ⟨key, r1⟩ := pr
          rw [hps] at h
          dsimp only [] at h
          cases hsw : skipWsJ r1 with
          | nil => rw [hsw] at h; simp at h
          | cons c3 r3 =>
            rw [hsw] at h
            dsimp only [] at h
            by_cases h2 : c3 = ':'
            · rw [if_pos h2] at h
              cases hpv : parseVal f (skipWsJ r3) with
              | none => rw [hpv] at h; simp at h
              | some pr2 =>
                obtain ⟨v2, r4⟩ := pr2
                rw [hpv] at h
                dsimp only [] at h
                cases hsw2 : skipWsJ r4 with
                | nil => rw [hsw2] at h; simp at h
                | cons c4 r6 =>
                  rw [hsw2] at h
                  dsimp only [] at h
                  have hchain : ∃ p, c :: rest = p ++ r6 := by
                    refine suffix_trans (⟨[c], rfl⟩ : ∃ p, c :: rest = p ++ rest) ?_
                    refine suffix_trans (parseStrBody_suffix f rest key r1 hps) ?_
                    refine suffix_trans (skipWsJ_suffix r1) ?_
                    rw [hsw]
                    refine suffix_trans (⟨[c3], rfl⟩ : ∃ p, c3 :: r3 = p ++ r3) ?_
                    refine suffix_trans (skipWsJ_suffix r3) ?_
                    refine suffix_trans (parseVal_suffix f (skipWsJ r3) v2 r4 hpv) ?_
                    refine suffix_trans (skipWsJ_suffix r4) ?_
                    rw [hsw2]
                    exact ⟨[c4], rfl⟩
                  by_cases h3 : c4 = '\x7d'
                  · rw [if_pos h3] at h
                    have hr : r6 = r := some_pair_snd h
                    rw [← hr]
                    exact hchain
                  · rw [if_neg h3] at h
                    by_cases h4 : c4 = ','
                    · rw [if_pos h4] at h
                      cases hrec : parseMemberLoop f (skipWsJ r6) with
                      | none => rw [hrec] at h; simp at h
                      | some pr3 =>
                        obtain ⟨ms2, r7⟩ := pr3
                        rw [hrec] at h
                        dsimp only [] at h
                        have hr : r7 = r := some_pair_snd h
                        refine suffix_trans hchain ?_
                        refine suffix_trans (skipWsJ_suffix r6) ?_
                        rw [← hr]
                        exact parseMemberLoop_suffix f (skipWsJ r6) ms2 r7 hrec
                    · rw [if_neg h4] at h
                      simp at h
            · rw [if_neg h2] at h
              simp at h
      · rw [if_neg h1] at h
        simp at h

theorem parseElems_suffix : ∀ f t es r, parseElems f t = some (es, r) → ∃ p, t = p ++ r
  | 0, t, es, r, h => by rw [parseElems_zero] at h; exact absurd h (by simp)
  | f + 1, t, es, r, h => by
    cases t with
    | nil =>
      rw [parseElems_nil] at h
      exact parseElemLoop_suffix f [] es r h
    | cons c rest =>
      rw [parseElems_cons] at h
      unfold parseElemsF at h
      by_cases h1 : c = ']'
      · rw [if_pos h1] at h
        have hr : rest = r := some_pair_snd h
        exact ⟨[c], by rw [hr]; rfl⟩
      · rw [if_neg h1] at h
        exact parseElemLoop_suffix f (c :: rest) es r h

theorem parseElemLoop_suffix : ∀ f t es r, parseElemLoop f t = some (es, r) → ∃ p, t = p ++ r
  | 0, t, es, r, h => by rw [parseElemLoop_zero] at h; exact absurd h (by simp)
  | f + 1, t, es, r, h => by
    rw [parseElemLoop_succ] at h
    unfold parseElemLoopF at h
    cases hpv : parseVal f t with
    | none => rw [hpv] at h; simp at h
    | some pr =>
      obtain ⟨v2, r1⟩ := pr
      rw [hpv] at h
      dsimp only [] at h
      cases hsw : skipWsJ r1 with
      | nil => rw [hsw] at h; simp at h
      | cons c2 r2 =>
        rw [hsw] at h
        dsimp only [] at h
        have hchain : ∃ p, t = p ++ r2 := by
          refine suffix_trans (parseVal_suffix f t v2 r1 hpv) ?_
          refine suffix_trans (skipWsJ_suffix r1) ?_
          rw [hsw]
          exact ⟨[c2], rfl⟩
        by_cases h1 : c2 = ']'
        · rw [if_pos h1] at h
          have hr : r2 = r := some_pair_snd h
          rw [← hr]
          exact hchain
        · rw [if_neg h1] at h
          by_cases h2 : c2 = ','
          · rw [if_pos h2] at h
            cases hrec : parseElemLoop f (skipWsJ r2) with
            | none => rw [hrec] at h; simp at h
            | some pr2 =>
              obtain ⟨es2, r3⟩ := pr2
              rw [hrec] at h
              dsimp only [] at h
              have hr : r3 = r := some_pair_snd h
              refine suffix_trans hchain ?_
              refine suffix_trans (skipWsJ_suffix r2) ?_
              rw [← hr]
              exact parseElemLoop_suffix f (skipWsJ r2) es2 r3 hrec
          · rw [if_neg h2] at h
            simp at h

end

mutual

theorem parseMembers_ends : ∀ f t ms r, parseMembers f t = some (ms, r) →
    ∃ mid, t = mid ++ '\x7d' :: r
  | 0, t, ms, r, h => by rw [parseMembers_zero] at h; exact absurd h (by simp)
  | f + 1, t, ms, r, h => by
    cases t with
    | nil =>
      rw [parseMembers_nil] at h
      exact parseMemberLoop_ends f [] ms r h
    | cons c rest =>
      rw [parseMembers_cons] at h
      unfold parseMembersF at h
      by_cases h1 : c = '\x7d'
      · rw [if_pos h1] at h
        have hr : rest = r := some_pair_snd h
        exact ⟨[], by rw [h1, hr]; rfl⟩
      · rw [if_neg h1] at h
        exact parseMemberLoop_ends f (c :: rest) ms r h

theorem parseMemberLoop_ends : ∀ f t ms r, parseMemberLoop f t = some (ms, r) →
    ∃ mid, t = mid ++ '\x7d' :: r
  | 0, t, ms, r, h => by rw [parseMemberLoop_zero] at h; exact absurd h (by simp)
  | f + 1, t, ms, r, h => by
    cases t with
    | nil =>
      rw [parseMemberLoop_nil] at h
      exact absurd h (by simp)
    | cons c rest =>
      rw [parseMemberLoop_cons] at h
      unfold parseMemberLoopF at h
      by_cases h1 : c = '"'
      · rw [if_pos h1] at h
        cases hps : parseStrBody f rest with
        | none => rw [hps] at h; simp at h
        | some pr =>
          obtain ⟨key, r1⟩ := pr
          rw [hps] at h
          dsimp only [] at h
          cases hsw : skipWsJ r1 with
          | nil => rw [hsw] at h; simp at h
          | cons c3 r3 =>
            rw [hsw] at h
            dsimp only [] at h
            by_cases h2 : c3 = ':'
            · rw [if_pos h2] at h
              cases hpv : parseVal f (skipWsJ r3) with
              | none => rw [hpv] at h; simp at h
              | some pr2 =>
                obtain ⟨v2, r4⟩ := pr2
                rw [hpv] at h
                dsimp only [] at h
                cases hsw2 : skipWsJ r4 with
                | nil => rw [hsw2] at h; simp at h
                | cons c4 r6 =>
                  rw [hsw2] at h
                  dsimp only [] at h
                  have hpre : ∃ p, c :: rest = p ++ skipWsJ r4 := by
                    refine suffix_trans (⟨[c], rfl⟩ : ∃ p, c :: rest = p ++ rest) ?_
                    refine suffix_trans (parseStrBody_suffix f rest key r1 hps) ?_
                    refine suffix_trans (skipWsJ_suffix r1) ?_
                    rw [hsw]
                    refine suffix_trans (⟨[c3], rfl⟩ : ∃ p, c3 :: r3 = p ++ r3) ?_
                    refine suffix_trans (skipWsJ_suffix r3) ?_
                    refine suffix_trans (parseVal_suffix f (skipWsJ r3) v2 r4 hpv) ?_
                    exact skipWsJ_suffix r4
                  by_cases h3 : c4 = '\x7d'
                  · rw [if_pos h3] at h
                    have hr : r6 = r := some_pair_snd h
                    obtain ⟨p, hp⟩ := hpre
                    rw [hsw2, h3, hr] at hp
                    exact ⟨p, hp⟩
                  · rw [if_neg h3] at h
                    by_cases h4 : c4 = ','
                    · rw [if_pos h4] at h
                      cases hrec : parseMemberLoop f (skipWsJ r6) with
                      | none => rw [hrec] at h; simp at h
                      | some pr3 =>
                        obtain ⟨ms2, r7⟩ := pr3
                        rw [hrec] at h
                        dsimp only [] at h
                        have hr : r7 = r := some_pair_snd h
                        obtain ⟨mid2, hmid2⟩ := parseMemberLoop_ends f (skipWsJ r6) ms2 r7 hrec
                        have hpre2 : ∃ p, c :: rest = p ++ skipWsJ r6 := by
                          refine suffix_trans hpre ?_
                          rw [hsw2]
                          refine suffix_trans (⟨[c4], rfl⟩ : ∃ p, c4 :: r6 = p ++ r6) ?_
                          exact skipWsJ_suffix r6
                        obtain ⟨p, hp⟩ := hpre2
                        refine ⟨p ++ mid2, ?_⟩
                        rw [hp, hmid2, hr]
                        simp [List.append_assoc]
                    · rw [if_neg h4] at h
                      simp at h
            · rw [if_neg h2] at h
              simp at h
      · rw [if_neg h1] at h
        simp at h

end

/-- A successfully scanned object starts at an opening brace and ends at
the matching closing brace: the rest of the input begins right after
it. -/
theorem parseVal_obj : ∀ f t ms r, parseVal f t = some (Json.obj ms, r) →
    ∃ mid, t = '\x7b' :: mid ++ '\x7d' :: r := by
  intro f t ms r h
  match f, t with
  | 0, t => rw [parseVal_zero] at h; exact absurd h (by simp)
  | f + 1, [] => rw [parseVal_nil] at h; exact absurd h (by simp)
  | f + 1, c :: rest =>
    rw [parseVal_cons] at h
    unfold parseValF at h
    by_cases h1 : c = '\x7b'
    · rw [if_pos h1] at h
      cases hp : parseMembers f (skipWsJ rest) with
      | none => rw [hp] at h; simp at h
      | some pr =>
        obtain ⟨ms2, r2⟩ := pr
        rw [hp] at h
        dsimp only [] at h
        have hr : r2 = r := some_pair_snd h
        obtain ⟨mid0, hmid0⟩ := parseMembers_ends f (skipWsJ rest) ms2 r2 hp
        obtain ⟨w, hw⟩ := skipWsJ_suffix rest
        refine ⟨w ++ mid0, ?_⟩
        rw [h1, hw, hmid0, hr]
        simp [List.append_assoc]
    · rw [if_neg h1] at h
      by_cases h2 : c = '['
      · rw [if_pos h2] at h
        cases hp : parseElems f (skipWsJ rest) with
        | none => rw [hp] at h; simp at h
        | some pr => obtain ⟨es, r2⟩ := pr; rw [hp] at h; simp at h
      · rw [if_neg h2] at h
        by_cases h3 : c = '"'
        · rw [if_pos h3] at h
          cases hp : parseStrBody f rest with
          | none => rw [hp] at h; simp at h
          | some pr => obtain ⟨sv, r2⟩ := pr; rw [hp] at h; simp at h
        · rw [if_neg h3] at h
          by_cases h4 : c = 't'
          · rw [if_pos h4] at h
            by_cases h4b : rest.take 3 = ['r', 'u', 'e']
            · rw [if_pos h4b] at h; simp at h
            · rw [if_neg h4b] at h; simp at h
          · rw [if_neg h4] at h
            by_cases h5 : c = 'f'
            · rw [if_pos h5] at h
              by_cases h5b : rest.take 4 = ['a', 'l', 's', 'e']
              · rw [if_pos h5b] at h; simp at h
              · rw [if_neg h5b] at h; simp at h
            · rw [if_neg h5] at h
              by_cases h6 : c = 'n'
              · rw [if_pos h6] at h
                by_cases h6b : rest.take 3 = ['u', 'l', 'l']
                · rw [if_pos h6b] at h; simp at h
                · rw [if_neg h6b] at h; simp at h
              · rw [if_neg h6] at h
                by_cases h7 : c = 'N'
                · rw [if_pos h7] at h
                  by_cases h7b : rest.take 2 = ['a', 'N']
                  · rw [if_pos h7b] at h; simp at h
                  · rw [if_neg h7b] at h; simp at h
                · rw [if_neg h7] at h
                  by_cases h8 : c = 'I'
                  · rw [if_pos h8] at h
                    by_cases h8b : rest.take 7 = ['n', 'f', 'i', 'n', 'i', 't', 'y']
                    · rw [if_pos h8b] at h; simp at h
                    · rw [if_neg h8b] at h; simp at h
                  · rw [if_neg h8] at h
                    by_cases h9 : (c = '-' && rest.take 8 =
                        ['I', 'n', 'f', 'i', 'n', 'i', 't', 'y']) = true
                    · rw [if_pos h9] at h; simp at h
                    · rw [if_neg (by simpa using h9)] at h
                      by_cases h10 : (c = '-' || c.isDigit) = true
                      · rw [if_pos h10] at h
                        cases hp : parseNumber (c :: rest) with
                        | none => rw [hp] at h; simp at h
                        | some pr => obtain ⟨lx, r2⟩ := pr; rw [hp] at h; simp at h
                      · rw [if_neg (by simpa using h10)] at h
                        simp at h

/-!
## From a parsed object to the shape of the text
-/

/-- A successful `json.loads` of an object splits the text into leading
whitespace, the braced body, and trailing whitespace. -/
theorem jloads_obj_shape (p : List Char) (m : List (List Char × Json))
    (h : jloads p = some (Json.obj m)) :
    ∃ w mid rest, p = w ++ '\x7b' :: mid ++ '\x7d' :: rest ∧
      w.all jsonWsChar = true ∧ rest.all jsonWsChar = true := by
  unfold jloads at h
  cases hpv : parseVal (4 * (p.length + 1)) (skipWsJ p) with
  | none => rw [hpv] at h; simp at h
  | some pr =>
    obtain ⟨v, rest⟩ := pr
    rw [hpv] at h
    dsimp only [] at h
    by_cases hend : skipWsJ rest = []
    · rw [if_pos hend] at h
      have hv : v = Json.obj m := Option.some.inj h
      subst hv
      obtain ⟨mid, hmid⟩ := parseVal_obj _ _ m rest hpv
      refine ⟨p.takeWhile jsonWsChar, mid, rest, ?_, ?_, ?_⟩
      · nth_rewrite 1 [← List.takeWhile_append_dropWhile jsonWsChar p]
        rw [show List.dropWhile jsonWsChar p = '{' :: mid ++ '}' :: rest from hmid]
        simp
      · exact List.all_eq_true.mpr fun x hx => List.mem_takeWhile_imp hx
      · exact List.all_eq_true.mpr fun x hx => (List.dropWhile_eq_nil_iff.mp hend) x hx
    · rw [if_neg hend] at h
      simp at h

/-!
## Whitespace and stripping lemmas
-/

theorem jsonWs_isWs {c : Char} (h : jsonWsChar c = true) : isWs c = true := by
  simp only [jsonWsChar, Bool.or_eq_true, decide_eq_true_eq] at h
  rcases h with ((h | h) | h) | h <;> simp [isWs, h]

theorem all_isWs_of_all_jsonWs {l : List Char} (h : l.all jsonWsChar = true) :
    l.all isWs = true :=
  List.all_eq_true.mpr fun x hx => jsonWs_isWs ((List.all_eq_true.mp h) x hx)

theorem dropWhile_append_all {l1 l2 : List Char} {q : Char → Bool} (h : l1.all q = true) :
    (l1 ++ l2).dropWhile q = l2.dropWhile q := by
  rw [List.dropWhile_append]
  have hnil : l1.dropWhile q = [] :=
    List.dropWhile_eq_nil_iff.mpr fun x hx => (List.all_eq_true.mp h) x hx
  simp [hnil]

theorem dropWhile_cons_neg {c : Char} {l : List Char} {q : Char → Bool} (h : q c = false) :
    (c :: l).dropWhile q = c :: l := by
  rw [List.dropWhile_cons, h]
  simp

/-- Stripping whitespace from around a text whose first and last
characters are not whitespace leaves exactly that text. -/
theorem pyStrip_sandwich (lead core trail : List Char) (hl : lead.all isWs = true)
    (ht : trail.all isWs = true) (hne : core ≠ [])
    (hfirst : ∀ a, core.head? = some a → isWs a = false)
    (hlast : ∀ a, core.reverse.head? = some a → isWs a = false) :
    pyStrip (lead ++ core ++ trail) = core := by
  unfold pyStrip
  rw [List.append_assoc, dropWhile_append_all hl]
  cases hc : core with
  | nil => exact absurd hc hne
  | cons a core2 =>
    have ha : isWs a = false := hfirst a (by rw [hc]; rfl)
    rw [List.cons_append, dropWhile_cons_neg ha]
    rw [show (a :: (core2 ++ trail)).reverse = trail.reverse ++ (core2.reverse ++ [a]) from by
      simp [List.reverse_cons, List.reverse_append, List.append_assoc]]
    rw [dropWhile_append_all (by rw [List.all_reverse]; exact ht)]
    have hrev : (a :: core2).reverse = core2.reverse ++ [a] := by simp
    cases hcr : core2.reverse ++ [a] with
    | nil => simp at hcr
    | cons b l2 =>
      have hb : isWs b = false := by
        refine hlast b ?_
        rw [hc, hrev, hcr]
        rfl
      have h5 : (a :: core2).reverse = b :: l2 := hrev.trans hcr
      rw [dropWhile_cons_neg hb, ← h5, List.reverse_reverse]

theorem head_of_take_cons {l tgt : List Char} {n : Nat} {a : Char}
    (h : l.take (n + 1) = a :: tgt) : l.head? = some a := by
  cases l with
  | nil => simp at h
  | cons x xs =>
    rw [List.take_succ_cons] at h
    have hx : x = a := (List.cons.injEq _ _ _ _).mp h |>.1
    simp [hx]

theorem not_take3_bt {l : List Char} (h : l.head? ≠ some '\x60') :
    ¬ l.take 3 = ['\x60', '\x60', '\x60'] := fun hc => h (head_of_take_cons (n := 2) hc)

theorem not_take4_json {l : List Char} (h : l.head? ≠ some 'j') :
    ¬ l.take 4 = ['j', 's', 'o', 'n'] := fun hc => h (head_of_take_cons (n := 3) hc)

theorem isWs_ne_j {c : Char} (h : isWs c = true) : c ≠ 'j' := by
  simp only [isWs, Bool.or_eq_true, decide_eq_true_eq] at h
  rcases h with ((((h | h) | h) | h) | h) | h <;> simp [h]

/-- The first substitution leaves a text that does not start with a
backtick unchanged. -/
theorem fenceSub1_id {t : List Char} (h : t.head? ≠ some '\x60') : fenceSub1 t = t := by
  unfold fenceSub1
  rw [if_neg (not_take3_bt h)]

/-- The second substitution leaves a text that does not end with a
backtick unchanged. -/
theorem fenceSub2_id {t : List Char} (h : t.reverse.head? ≠ some '\x60') : fenceSub2 t = t := by
  unfold fenceSub2
  dsimp only []
  rw [if_neg (not_take3_bt h)]

/-- Fence stripping is the identity on a stripped object text. -/
theorem stripFences_obj {p mid : List Char} (h : pyStrip p = '\x7b' :: mid ++ ['\x7d']) :
    stripFences p = '\x7b' :: mid ++ ['\x7d'] := by
  unfold stripFences
  rw [h, fenceSub1_id (by simp), fenceSub2_id (by simp [List.reverse_append])]

theorem fenceSub1_tag (x : List Char) :
    fenceSub1 ('\x60' :: '\x60' :: '\x60' :: 'j' :: 's' :: 'o' :: 'n' :: x) =
      x.dropWhile isWs := rfl

theorem fenceSub1_notag (x : List Char) (hx : x.head? ≠ some 'j') :
    fenceSub1 ('\x60' :: '\x60' :: '\x60' :: x) = x.dropWhile isWs := by
  unfold fenceSub1
  split
  · dsimp only []
    split
    · rename_i hjson
      exact absurd (by simpa using hjson) (not_take4_json hx)
    · rfl
  · rename_i hcond
    exact absurd rfl hcond

/-- The closing-fence substitution on a stripped object body followed by
whitespace and the closing backticks. -/
theorem fenceSub2_strip (mid s2 : List Char) (h2 : s2.all isWs = true) :
    fenceSub2 ('\x7b' :: ((mid ++ ['\x7d']) ++ (s2 ++ ['\x60', '\x60', '\x60']))) =
      '\x7b' :: mid ++ ['\x7d'] := by
  unfold fenceSub2
  dsimp only []
  have hrev : ('\x7b' :: ((mid ++ ['\x7d']) ++ (s2 ++ ['\x60', '\x60', '\x60']))).reverse
      = '\x60' :: '\x60' :: '\x60' ::
          (s2.reverse ++ ('\x7d' :: (mid.reverse ++ ['\x7b']))) := by
    simp [List.reverse_cons, List.reverse_append, List.append_assoc]
  rw [hrev]
  split
  · rw [show ('\x60' :: '\x60' :: '\x60' ::
        (s2.reverse ++ ('\x7d' :: (mid.reverse ++ ['\x7b'])))).drop 3
        = s2.reverse ++ ('\x7d' :: (mid.reverse ++ ['\x7b'])) from rfl]
    rw [dropWhile_append_all (by rw [List.all_reverse]; exact h2)]
    rw [dropWhile_cons_neg (by decide : isWs '\x7d' = false)]
    simp [List.reverse_append]
  · rename_i hcond
    exact absurd rfl hcond

/-- Dropping the whitespace before the object body and stripping the
closing fence recovers the body. -/
theorem fenceSub2_dropWhile_tail (s1 mid s2 : List Char) (h1 : s1.all isWs = true)
    (h2 : s2.all isWs = true) :
    fenceSub2 ((s1 ++ (('\x7b' :: mid ++ ['\x7d']) ++
      (s2 ++ ['\x60', '\x60', '\x60']))).dropWhile isWs) = '\x7b' :: mid ++ ['\x7d'] := by
  rw [dropWhile_append_all h1]
  rw [show (('\x7b' :: mid ++ ['\x7d']) : List Char) ++ (s2 ++ ['\x60', '\x60', '\x60']) =
    '\x7b' :: ((mid ++ ['\x7d']) ++ (s2 ++ ['\x60', '\x60', '\x60'])) from by
      simp [List.append_assoc]]
  rw [dropWhile_cons_neg (by decide : isWs '\x7b' = false)]
  exact fenceSub2_strip mid s2 h2

/-- Full computation of the fence stripper on a fenced stripped object
body. -/
theorem stripFences_fence (tag : Bool) (lead s1 mid s2 trail : List Char)
    (hl : lead.all isWs = true) (h1 : s1.all isWs = true)
    (h2 : s2.all isWs = true) (ht : trail.all isWs = true) :
    stripFences (lead ++ (fenceOpen tag ++ s1 ++ ('\x7b' :: mid ++ ['\x7d']) ++ s2 ++
      ['\x60', '\x60', '\x60']) ++ trail) = '\x7b' :: mid ++ ['\x7d'] := by
  unfold stripFences
  rw [pyStrip_sandwich lead _ trail hl ht (by cases tag <;> simp [fenceOpen]) ?hfirst ?hlast]
  case hfirst =>
    intro a ha
    have hh : (fenceOpen tag ++ s1 ++ ('\x7b' :: mid ++ ['\x7d']) ++ s2 ++
        ['\x60', '\x60', '\x60']).head? = some '\x60' := by
      cases tag <;> simp [fenceOpen]
    rw [hh] at ha
    have : '\x60' = a := Option.some.inj ha
    rw [← this]
    decide
  case hlast =>
    intro a ha
    have hh : (fenceOpen tag ++ s1 ++ ('\x7b' :: mid ++ ['\x7d']) ++ s2 ++
        ['\x60', '\x60', '\x60']).reverse.head? = some '\x60' := by
      simp [List.reverse_append]
    rw [hh] at ha
    have : '\x60' = a := Option.some.inj ha
    rw [← this]
    decide
  cases tag with
  | true =>
    rw [show fenceOpen true ++ s1 ++ ('\x7b' :: mid ++ ['\x7d']) ++ s2 ++
        ['\x60', '\x60', '\x60'] =
        '\x60' :: '\x60' :: '\x60' :: 'j' :: 's' :: 'o' :: 'n' ::
          (s1 ++ (('\x7b' :: mid ++ ['\x7d']) ++ (s2 ++ ['\x60', '\x60', '\x60']))) from by
      simp [fenceOpen, List.append_assoc]]
    rw [fenceSub1_tag]
    exact fenceSub2_dropWhile_tail s1 mid s2 h1 h2
  | false =>
    rw [show fenceOpen false ++ s1 ++ ('\x7b' :: mid ++ ['\x7d']) ++ s2 ++
        ['\x60', '\x60', '\x60'] =
        '\x60' :: '\x60' :: '\x60' ::
          (s1 ++ (('\x7b' :: mid ++ ['\x7d']) ++ (s2 ++ ['\x60', '\x60', '\x60']))) from by
      simp [fenceOpen, List.append_assoc]]
    rw [fenceSub1_notag _ ?hj]
    case hj =>
      cases s1 with
      | nil => simp
      | cons a s1b =>
        have ha : isWs a = true := by
          have := List.all_eq_true.mp h1 a (by simp)
          exact this
        simp only [List.cons_append, List.head?_cons]
        intro hcontra
        exact isWs_ne_j ha (Option.some.inj hcontra)
    exact fenceSub2_dropWhile_tail s1 mid s2 h1 h2

/-!
## Claim C1: fence-insensitivity of the response parser
-/

/-- C1: for a completion response whose payload is a valid JSON object,
the response parser of `_call_anthropic` recovers the identical result
whether or not the payload is wrapped in a markdown code fence — with or
without a `json` language tag, with arbitrary whitespace around the
fence lines and the payload. -/
theorem callAnthropicParse_fence_invariant (p lead sep1 sep2 trail : List Char) (tag : Bool)
    (m : List (List Char × Json))
    (hl : lead.all isWs = true) (h1 : sep1.all isWs = true)
    (h2 : sep2.all isWs = true) (ht : trail.all isWs = true)
    (hp : jloads p = some (Json.obj m)) :
    callAnthropicParse (wrapFence tag lead sep1 p sep2 trail) = callAnthropicParse p := by
  obtain ⟨w, mid, rest, hdecomp, hw, hrest⟩ := jloads_obj_shape p m hp
  have hwW : w.all isWs = true := all_isWs_of_all_jsonWs hw
  have hrestW : rest.all isWs = true := all_isWs_of_all_jsonWs hrest
  have hps : pyStrip p = '\x7b' :: mid ++ ['\x7d'] := by
    rw [hdecomp]
    rw [show w ++ '\x7b' :: mid ++ '\x7d' :: rest =
      w ++ ('\x7b' :: mid ++ ['\x7d']) ++ rest from by simp [List.append_assoc]]
    refine pyStrip_sandwich w _ rest hwW hrestW (by simp) ?_ ?_
    · intro a ha
      simp only [List.head?_cons] at ha
      have h5 := Option.some.inj ha
      rw [← h5]
      decide
    · intro a ha
      have hh : (('\x7b' :: mid ++ ['\x7d']) : List Char).reverse.head? = some '\x7d' := by
        simp [List.reverse_append]
      rw [hh] at ha
      have h5 := Option.some.inj ha
      rw [← h5]
      decide
  have hSp := stripFences_obj hps
  have hSw : stripFences (wrapFence tag lead sep1 p sep2 trail) =
      '\x7b' :: mid ++ ['\x7d'] := by
    rw [show wrapFence tag lead sep1 p sep2 trail =
      lead ++ (fenceOpen tag ++ (sep1 ++ w) ++ ('\x7b' :: mid ++ ['\x7d']) ++
        (rest ++ sep2) ++ ['\x60', '\x60', '\x60']) ++ trail from by
      rw [wrapFence, hdecomp]
      simp [List.append_assoc]]
    exact stripFences_fence tag lead (sep1 ++ w) mid (rest ++ sep2) trail hl
      (by simp [List.all_append, h1, hwW]) (by simp [List.all_append, hrestW, h2]) ht
  simp only [callAnthropicParse, hSp, hSw]

/-- Witness for C1 at a concrete fenced payload. -/
theorem callAnthropicParse_fence_invariant_witness :
    jloads " \x7b\"a\": 1\x7d ".toList =
        some (Json.obj [("a".toList, Json.numV ['1'])]) ∧
      callAnthropicParse (wrapFence true "  ".toList "\n".toList
          " \x7b\"a\": 1\x7d ".toList "\n".toList " ".toList) =
        callAnthropicParse " \x7b\"a\": 1\x7d ".toList :=
  ⟨by rfl,
    callAnthropicParse_fence_invariant " \x7b\"a\": 1\x7d ".toList "  ".toList
      "\n".toList "\n".toList " ".toList true [("a".toList, Json.numV ['1'])]
      (by decide) (by decide) (by decide) (by decide) (by rfl)⟩

end AgentFactory
